import Mathlib

/-!
Shallow embedding of the AUDITOR python client's durable submission
subsystem (`src/client/auditorclient/`): the `Record` data model
(`record.py`), `Task` and `Instruction` (`task.py`), the in-memory
priority queue backed by Python's `heapq` as used by
`asyncio.PriorityQueue` (`queue.py`), the sqlite spill store
(`db.py`), and the worker loop of `AuditorClient` (`client.py`).

Machine integers do not occur (Python ints are unbounded); Python
floats appearing as component factors are modelled by rationals,
which Python's `json` module round-trips losslessly for finite
values.  Fallible operations (sqlite inserts, row parsing) return
`Except`.
-/

namespace Auditor

/-! ### `task.py`: `Instruction`

`Instruction(IntEnum)` with `ADD = 1`, `UPDATE = 2`; the enum is
ordered because `Task.__lt__` compares instructions inside the
priority queue. -/

inductive Instruction where
  | ADD
  | UPDATE
deriving DecidableEq, Repr

/-- The `IntEnum` value of an instruction: `ADD = 1`, `UPDATE = 2`. -/
def Instruction.val : Instruction → ℕ
  | .ADD => 1
  | .UPDATE => 2

/-- `Instruction(n)`: converting an int back to the enum, as done by
`DBsqlite.get_all` on the stored `instruction` column; raises
(`none`) for ints that are not a member value. -/
def Instruction.fromVal : ℕ → Option Instruction
  | 1 => some .ADD
  | 2 => some .UPDATE
  | _ => none

/-! ### `record.py`: `Components` and `Record`

`Components` wraps a list of dicts `{"name": ..., "amount": ...,
"factor": ...}`; `add_component` appends.  `Record` carries the
identity fields, the component list, and optional start/stop times
(set as strings by `with_start_time` / `with_stop_time`). -/

structure Comp where
  name : String
  amount : ℤ
  factor : ℚ
deriving DecidableEq, Repr

/-- `Components.add_component`: appends one component dict. -/
def addComponent (cs : List Comp) (name : String) (amount : ℤ) (factor : ℚ) :
    List Comp :=
  cs ++ [⟨name, amount, factor⟩]

structure Record where
  record_id : String
  site_id : String
  user_id : String
  group_id : String
  components : List Comp
  start_time : Option String
  stop_time : Option String
deriving DecidableEq, Repr

/-- The dictionary produced by `Record.as_dict`.  `Record.as_json` is
`json.dumps` of this dict and the parsing branch of `Record.__init__`
is `json.loads` followed by field extraction; since Python's
`json.dumps`/`json.loads` are mutually inverse on dicts built from
`str`, `int`, finite `float`, `None`, `list` and `dict` values, the
serialized string is modelled by the dict itself. -/
structure RecordDict where
  record_id : String
  site_id : String
  user_id : String
  group_id : String
  components : List Comp
  start_time : Option String
  stop_time : Option String
deriving DecidableEq, Repr

/-- `Record.as_dict` (and, through `json.dumps`, `Record.as_json`). -/
def Record.as_dict (r : Record) : RecordDict :=
  ⟨r.record_id, r.site_id, r.user_id, r.group_id, r.components,
    r.start_time, r.stop_time⟩

/-- The `json_str` branch of `Record.__init__`: rebuild the component
list with `add_component` in order, then read off every field. -/
def Record.fromJson (d : RecordDict) : Record :=
  let c := d.components.foldl
    (fun acc comp => addComponent acc comp.name comp.amount comp.factor) []
  ⟨d.record_id, d.site_id, d.user_id, d.group_id, c,
    d.start_time, d.stop_time⟩

/-- `Record.__eq__`: structural comparison of all seven fields
(components in order). -/
def Record.beq (a b : Record) : Bool :=
  decide (a.record_id = b.record_id) &&
  decide (a.site_id = b.site_id) &&
  decide (a.user_id = b.user_id) &&
  decide (a.group_id = b.group_id) &&
  decide (a.components = b.components) &&
  decide (a.start_time = b.start_time) &&
  decide (a.stop_time = b.stop_time)

theorem foldl_addComponent (l acc : List Comp) :
    l.foldl (fun acc comp => addComponent acc comp.name comp.amount comp.factor)
      acc = acc ++ l := by
  induction l generalizing acc with
  | nil => simp
  | cons c cs ih => rw [List.foldl_cons, ih]; simp [addComponent]

theorem Record.fromJson_as_dict (r : Record) :
    Record.fromJson r.as_dict = r := by
  cases r
  simp [Record.fromJson, Record.as_dict, foldl_addComponent]

theorem Record.beq_refl (r : Record) : Record.beq r r = true := by
  simp [Record.beq]

/-! ### Python `datetime.datetime` and `dateutil.parser`

Modelled from the spec and the Python standard library (`datetime` is
an external collaborator of this repository): a naive datetime is a
tuple of calendar fields, compared lexicographically; adding a
`timedelta(seconds=n)` carries through the time of day into the
Gregorian calendar; `str(d)` renders `YYYY-MM-DD HH:MM:SS[.ffffff]`
(microseconds omitted when zero) and `dateutil.parser.parse` reads
that shape back, rejecting strings that are not a valid date. -/

structure Datetime where
  year : ℕ
  month : ℕ
  day : ℕ
  hour : ℕ
  minute : ℕ
  second : ℕ
  microsecond : ℕ
deriving DecidableEq, Repr

/-- Python's `<` on naive datetimes: lexicographic on the fields. -/
def dtLt (a b : Datetime) : Bool :=
  if a.year ≠ b.year then decide (a.year < b.year)
  else if a.month ≠ b.month then decide (a.month < b.month)
  else if a.day ≠ b.day then decide (a.day < b.day)
  else if a.hour ≠ b.hour then decide (a.hour < b.hour)
  else if a.minute ≠ b.minute then decide (a.minute < b.minute)
  else if a.second ≠ b.second then decide (a.second < b.second)
  else decide (a.microsecond < b.microsecond)

/-- Days since 1970-01-01 of a Gregorian date (Hinnant's civil-days
algorithm, valid for the years a wall clock produces). -/
def daysFromCivil (y m d : ℤ) : ℤ :=
  let y := if m ≤ 2 then y - 1 else y
  let era := (if 0 ≤ y then y else y - 399) / 400
  let yoe := y - era * 400
  let mp := if 2 < m then m - 3 else m + 9
  let doy := (153 * mp + 2) / 5 + d - 1
  let doe := yoe * 365 + yoe / 4 - yoe / 100 + doy
  era * 146097 + doe - 719468

/-- Inverse of `daysFromCivil`: the Gregorian date of a day number. -/
def civilFromDays (z0 : ℤ) : ℤ × ℤ × ℤ :=
  let z := z0 + 719468
  let era := (if 0 ≤ z then z else z - 146096) / 146097
  let doe := z - era * 146097
  let yoe := (doe - doe / 1460 + doe / 36524 - doe / 146096) / 365
  let y := yoe + era * 400
  let doy := doe - (365 * yoe + yoe / 4 - yoe / 100)
  let mp := (5 * doy + 2) / 153
  let d := doy - (153 * mp + 2) / 5 + 1
  let m := if mp < 10 then mp + 3 else mp - 9
  (if m ≤ 2 then y + 1 else y, m, d)

/-- `d + datetime.timedelta(seconds=n)`: microseconds unchanged, the
time of day advances with overflow carried into the date. -/
def Datetime.addSeconds (d : Datetime) (n : ℕ) : Datetime :=
  let tod := d.hour * 3600 + d.minute * 60 + d.second + n
  let carry := tod / 86400
  let rest := tod % 86400
  let days := daysFromCivil (d.year : ℤ) (d.month : ℤ) (d.day : ℤ) + carry
  let c := civilFromDays days
  ⟨c.1.toNat, c.2.1.toNat, c.2.2.toNat,
    rest / 3600, rest % 3600 / 60, rest % 60, d.microsecond⟩

/-- Decimal digit characters. -/
def digitChar : ℕ → Char
  | 0 => '0' | 1 => '1' | 2 => '2' | 3 => '3' | 4 => '4'
  | 5 => '5' | 6 => '6' | 7 => '7' | 8 => '8' | _ => '9'

/-- Numeric value of a digit character. -/
def digitVal (c : Char) : ℕ := c.toNat - 48

/-- `%02d` of a field that Python's `datetime` keeps below 100. -/
def pad2 (n : ℕ) : List Char := [digitChar (n / 10), digitChar (n % 10)]

/-- `%04d` of the year (kept below 10000 by `datetime`). -/
def pad4 (n : ℕ) : List Char :=
  [digitChar (n / 1000), digitChar (n / 100 % 10),
   digitChar (n / 10 % 10), digitChar (n % 10)]

/-- `%06d` of the microsecond field (below 1000000). -/
def pad6 (n : ℕ) : List Char :=
  [digitChar (n / 100000), digitChar (n / 10000 % 10),
   digitChar (n / 1000 % 10), digitChar (n / 100 % 10),
   digitChar (n / 10 % 10), digitChar (n % 10)]

/-- The `YYYY-MM-DD` part of `str(d)`. -/
def dateChars (d : Datetime) : List Char :=
  pad4 d.year ++ '-' :: (pad2 d.month ++ '-' :: pad2 d.day)

/-- The `.ffffff` suffix of `str(d)`, present iff microseconds ≠ 0. -/
def microChars (d : Datetime) : List Char :=
  if d.microsecond = 0 then [] else '.' :: pad6 d.microsecond

/-- The `HH:MM:SS[.ffffff]` part of `str(d)`. -/
def timeChars (d : Datetime) : List Char :=
  pad2 d.hour ++ ':' :: (pad2 d.minute ++ ':' :: (pad2 d.second ++ microChars d))

/-- `str(d)` of a naive datetime: `YYYY-MM-DD HH:MM:SS` with a
`.ffffff` suffix exactly when the microsecond field is nonzero. -/
def dtStrChars (d : Datetime) : List Char :=
  dateChars d ++ ' ' :: timeChars d

def dtStr (d : Datetime) : String := String.mk (dtStrChars d)

/-- Split a character list at every occurrence of `sep`. -/
def splitOnChar (sep : Char) : List Char → List (List Char)
  | [] => [[]]
  | c :: cs =>
    if c = sep then [] :: splitOnChar sep cs
    else
      match splitOnChar sep cs with
      | [] => [[c]]
      | g :: gs => (c :: g) :: gs

/-- Read a nonempty all-digit character list as a decimal number. -/
def parseDigits (cs : List Char) : Option ℕ :=
  if cs ≠ [] ∧ cs.all Char.isDigit then
    some (cs.foldl (fun a c => 10 * a + digitVal c) 0)
  else none

/-- Day count of a month (Gregorian). -/
def daysInMonth (y m : ℕ) : ℕ :=
  if m = 2 then
    if y % 4 = 0 ∧ (y % 100 ≠ 0 ∨ y % 400 = 0) then 29 else 28
  else if m = 4 ∨ m = 6 ∨ m = 9 ∨ m = 11 then 30
  else 31

/-- `dateutil.parser.parse` on the strings `str(datetime)` shapes,
modelled from the spec: the date and clock fields are read back and
validated as a real calendar date and time (dateutil constructs a
`datetime`, which rejects out-of-range fields); anything else fails. -/
def dtParse (s : String) : Option Datetime :=
  match splitOnChar ' ' s.toList with
  | [datePart, timePart] =>
    match splitOnChar '-' datePart with
    | [ys, ms, ds] =>
      match splitOnChar ':' timePart with
      | [hs, mins, secFrac] =>
        match splitOnChar '.' secFrac with
        | [ss] => dtBuild ys ms ds hs mins ss (some 0)
        | [ss, us] =>
          if us.length = 6 then dtBuild ys ms ds hs mins ss (parseDigits us)
          else none
        | _ => none
      | _ => none
    | _ => none
  | _ => none
where
  dtBuild (ys ms ds hs mins ss : List Char) (uso : Option ℕ) :
      Option Datetime :=
    match parseDigits ys, parseDigits ms, parseDigits ds,
        parseDigits hs, parseDigits mins, parseDigits ss, uso with
    | some y, some mo, some d, some h, some mi, some sec, some usec =>
      if 1 ≤ y ∧ y ≤ 9999 ∧ 1 ≤ mo ∧ mo ≤ 12 ∧ 1 ≤ d ∧ d ≤ daysInMonth y mo ∧
          h ≤ 23 ∧ mi ≤ 59 ∧ sec ≤ 59 ∧ usec < 1000000 then
        some ⟨y, mo, d, h, mi, sec, usec⟩
      else none
    | _, _, _, _, _, _, _ => none

/-! ### Round-trip of the datetime string rendering -/

theorem digitChar_isDigit (k : ℕ) : (digitChar k).isDigit = true := by
  unfold digitChar
  split <;> decide

theorem digitVal_digitChar (k : ℕ) (h : k < 10) :
    digitVal (digitChar k) = k := by
  interval_cases k <;> decide

theorem mem_pad2_isDigit {c : Char} {n : ℕ} (h : c ∈ pad2 n) :
    c.isDigit = true := by
  simp only [pad2, List.mem_cons, List.mem_singleton, List.not_mem_nil] at h
  rcases h with h | h | h
  · rw [h]; exact digitChar_isDigit _
  · rw [h]; exact digitChar_isDigit _
  · cases h

theorem mem_pad4_isDigit {c : Char} {n : ℕ} (h : c ∈ pad4 n) :
    c.isDigit = true := by
  simp only [pad4, List.mem_cons, List.not_mem_nil] at h
  rcases h with h | h | h | h | h <;> first | (rw [h]; exact digitChar_isDigit _) | cases h

theorem mem_pad6_isDigit {c : Char} {n : ℕ} (h : c ∈ pad6 n) :
    c.isDigit = true := by
  simp only [pad6, List.mem_cons, List.not_mem_nil] at h
  rcases h with h | h | h | h | h | h | h <;>
    first | (rw [h]; exact digitChar_isDigit _) | cases h

theorem splitOnChar_no_sep {sep : Char} {l : List Char} (h : sep ∉ l) :
    splitOnChar sep l = [l] := by
  induction l with
  | nil => rfl
  | cons c cs ih =>
    have hc : ¬ c = sep := fun he => h (he ▸ List.mem_cons_self c cs)
    have hcs : sep ∉ cs := fun hm => h (List.mem_cons_of_mem c hm)
    rw [splitOnChar, if_neg hc, ih hcs]

theorem splitOnChar_append {sep : Char} {l₁ l₂ : List Char} (h : sep ∉ l₁) :
    splitOnChar sep (l₁ ++ sep :: l₂) = l₁ :: splitOnChar sep l₂ := by
  induction l₁ with
  | nil => simp [splitOnChar]
  | cons c cs ih =>
    have hc : ¬ c = sep := fun he => h (he ▸ List.mem_cons_self c cs)
    have hcs : sep ∉ cs := fun hm => h (List.mem_cons_of_mem c hm)
    rw [List.cons_append, splitOnChar, if_neg hc, ih hcs]

theorem parseDigits_pad2 {n : ℕ} (h : n < 100) :
    parseDigits (pad2 n) = some n := by
  have h1 : n / 10 < 10 := by omega
  have h2 : n % 10 < 10 := by omega
  rw [parseDigits, if_pos]
  · simp only [pad2, List.foldl_cons, List.foldl_nil,
      digitVal_digitChar _ h1, digitVal_digitChar _ h2]
    congr 1
    omega
  · refine ⟨by simp [pad2], ?_⟩
    rw [List.all_eq_true]
    exact fun c hc => mem_pad2_isDigit hc

theorem parseDigits_pad4 {n : ℕ} (h : n < 10000) :
    parseDigits (pad4 n) = some n := by
  have h1 : n / 1000 < 10 := by omega
  have h2 : n / 100 % 10 < 10 := by omega
  have h3 : n / 10 % 10 < 10 := by omega
  have h4 : n % 10 < 10 := by omega
  rw [parseDigits, if_pos]
  · simp only [pad4, List.foldl_cons, List.foldl_nil,
      digitVal_digitChar _ h1, digitVal_digitChar _ h2,
      digitVal_digitChar _ h3, digitVal_digitChar _ h4]
    congr 1
    omega
  · refine ⟨by simp [pad4], ?_⟩
    rw [List.all_eq_true]
    exact fun c hc => mem_pad4_isDigit hc

theorem parseDigits_pad6 {n : ℕ} (h : n < 1000000) :
    parseDigits (pad6 n) = some n := by
  have h1 : n / 100000 < 10 := by omega
  have h2 : n / 10000 % 10 < 10 := by omega
  have h3 : n / 1000 % 10 < 10 := by omega
  have h4 : n / 100 % 10 < 10 := by omega
  have h5 : n / 10 % 10 < 10 := by omega
  have h6 : n % 10 < 10 := by omega
  rw [parseDigits, if_pos]
  · simp only [pad6, List.foldl_cons, List.foldl_nil,
      digitVal_digitChar _ h1, digitVal_digitChar _ h2,
      digitVal_digitChar _ h3, digitVal_digitChar _ h4,
      digitVal_digitChar _ h5, digitVal_digitChar _ h6]
    congr 1
    omega
  · refine ⟨by simp [pad6], ?_⟩
    rw [List.all_eq_true]
    exact fun c hc => mem_pad6_isDigit hc

theorem space_not_mem_dateChars (d : Datetime) : ' ' ∉ dateChars d := by
  intro hm
  simp only [dateChars, List.mem_append, List.mem_cons] at hm
  rcases hm with h | h | h | h | h
  · exact absurd (mem_pad4_isDigit h) (by decide)
  · cases h
  · exact absurd (mem_pad2_isDigit h) (by decide)
  · cases h
  · exact absurd (mem_pad2_isDigit h) (by decide)

theorem space_not_mem_timeChars (d : Datetime) : ' ' ∉ timeChars d := by
  intro hm
  simp only [timeChars, microChars, List.mem_append, List.mem_cons] at hm
  rcases hm with h | h | h | h | h
  · exact absurd (mem_pad2_isDigit h) (by decide)
  · cases h
  · exact absurd (mem_pad2_isDigit h) (by decide)
  · cases h
  · rcases h with h | h
    · exact absurd (mem_pad2_isDigit h) (by decide)
    · split at h
      · cases h
      · rcases List.mem_cons.mp h with h | h
        · cases h
        · exact absurd (mem_pad6_isDigit h) (by decide)

theorem split_space_dtStrChars (d : Datetime) :
    splitOnChar ' ' (dtStrChars d) = [dateChars d, timeChars d] := by
  rw [dtStrChars, splitOnChar_append (space_not_mem_dateChars d),
    splitOnChar_no_sep (space_not_mem_timeChars d)]

theorem split_dash_dateChars (d : Datetime) :
    splitOnChar '-' (dateChars d) = [pad4 d.year, pad2 d.month, pad2 d.day] := by
  have h4 : '-' ∉ pad4 d.year :=
    fun hm => absurd (mem_pad4_isDigit hm) (by decide)
  have hm2 : '-' ∉ pad2 d.month :=
    fun hm => absurd (mem_pad2_isDigit hm) (by decide)
  have hd2 : '-' ∉ pad2 d.day :=
    fun hm => absurd (mem_pad2_isDigit hm) (by decide)
  rw [dateChars, splitOnChar_append h4, splitOnChar_append hm2,
    splitOnChar_no_sep hd2]

theorem split_colon_timeChars (d : Datetime) :
    splitOnChar ':' (timeChars d) =
      [pad2 d.hour, pad2 d.minute, pad2 d.second ++ microChars d] := by
  have hh : ':' ∉ pad2 d.hour :=
    fun hm => absurd (mem_pad2_isDigit hm) (by decide)
  have hmi : ':' ∉ pad2 d.minute :=
    fun hm => absurd (mem_pad2_isDigit hm) (by decide)
  have hs : ':' ∉ pad2 d.second ++ microChars d := by
    intro hm
    rcases List.mem_append.mp hm with h | h
    · exact absurd (mem_pad2_isDigit h) (by decide)
    · rw [microChars] at h
      split at h
      · cases h
      · rcases List.mem_cons.mp h with h | h
        · cases h
        · exact absurd (mem_pad6_isDigit h) (by decide)
  rw [timeChars, splitOnChar_append hh, splitOnChar_append hmi,
    splitOnChar_no_sep hs]

theorem dtParse_dtStr (d : Datetime)
    (hy1 : 1 ≤ d.year) (hy2 : d.year ≤ 9999)
    (hm1 : 1 ≤ d.month) (hm2 : d.month ≤ 12)
    (hd1 : 1 ≤ d.day) (hd2 : d.day ≤ daysInMonth d.year d.month)
    (hh : d.hour ≤ 23) (hmi : d.minute ≤ 59) (hs : d.second ≤ 59)
    (hus : d.microsecond < 1000000) :
    dtParse (dtStr d) = some d := by
  have htl : (dtStr d).toList = dtStrChars d := by
    simp [dtStr]
  have hpy : parseDigits (pad4 d.year) = some d.year := parseDigits_pad4 (by omega)
  have hpm : parseDigits (pad2 d.month) = some d.month := parseDigits_pad2 (by omega)
  have hpd : parseDigits (pad2 d.day) = some d.day := by
    refine parseDigits_pad2 ?_
    have : daysInMonth d.year d.month ≤ 31 := by
      rw [daysInMonth]; split
      · split <;> omega
      · split <;> omega
    omega
  have hph : parseDigits (pad2 d.hour) = some d.hour := parseDigits_pad2 (by omega)
  have hpmi : parseDigits (pad2 d.minute) = some d.minute :=
    parseDigits_pad2 (by omega)
  have hps : parseDigits (pad2 d.second) = some d.second :=
    parseDigits_pad2 (by omega)
  have hcond : 1 ≤ d.year ∧ d.year ≤ 9999 ∧ 1 ≤ d.month ∧ d.month ≤ 12 ∧
      1 ≤ d.day ∧ d.day ≤ daysInMonth d.year d.month ∧ d.hour ≤ 23 ∧
      d.minute ≤ 59 ∧ d.second ≤ 59 ∧ d.microsecond < 1000000 :=
    ⟨hy1, hy2, hm1, hm2, hd1, hd2, hh, hmi, hs, hus⟩
  rw [dtParse, htl, split_space_dtStrChars]
  simp only [split_dash_dateChars, split_colon_timeChars]
  by_cases hz : d.microsecond = 0
  · have hmc : pad2 d.second ++ microChars d = pad2 d.second := by
      rw [microChars, if_pos hz]
      simp
    rw [hmc, splitOnChar_no_sep
      (fun hm => absurd (mem_pad2_isDigit hm) (by decide : ¬('.'.isDigit = true)))]
    simp only [dtParse.dtBuild, hpy, hpm, hpd, hph, hpmi, hps]
    rw [if_pos (hz ▸ hcond)]
    cases d
    simp_all
  · have hdot : '.' ∉ pad2 d.second :=
      fun hm => absurd (mem_pad2_isDigit hm) (by decide)
    have hmc : pad2 d.second ++ microChars d =
        pad2 d.second ++ '.' :: pad6 d.microsecond := by
      rw [microChars, if_neg hz]
    rw [hmc, splitOnChar_append hdot,
      splitOnChar_no_sep (fun hm => absurd (mem_pad6_isDigit hm)
        (by decide : ¬('.'.isDigit = true)))]
    have hlen : (pad6 d.microsecond).length = 6 := by simp [pad6]
    simp only [dtParse.dtBuild, hlen, hpy, hpm, hpd, hph, hpmi, hps,
      parseDigits_pad6 hus, if_pos rfl]
    simp
    exact hcond

/-! ### `task.py`: `Task`

A task is an instruction, a record payload, a retry budget (a Python
int, which `try_once` may drive negative) and an optional
`_schedule_after` datetime. -/

structure Task where
  instr : Instruction
  record : Record
  retries : ℤ
  schedule_after : Option Datetime
deriving DecidableEq, Repr

instance : Inhabited Task :=
  ⟨⟨.ADD, ⟨"", "", "", "", [], none, none⟩, 0, none⟩⟩

/-- The sort key used by `Task.__lt__`: the `IntEnum` value of the
instruction.  `a < b` iff `key a < key b`. -/
def key (t : Task) : ℕ := t.instr.val

/-- `Task.try_once`: decrement the retry counter, report whether it is
still non-negative (the task mutates; the new task is returned). -/
def Task.try_once (t : Task) : Bool × Task :=
  (decide (0 ≤ t.retries - 1), { t with retries := t.retries - 1 })

/-- `Task.wait_for_sec(time)` at wall-clock `now`: a non-`None` time
sets `_schedule_after = now + timedelta(seconds=time)`, `None` clears
it. -/
def Task.wait_for_sec (t : Task) (time : Option ℕ) (now : Datetime) : Task :=
  match time with
  | some s => { t with schedule_after := some (now.addSeconds s) }
  | none => { t with schedule_after := none }

/-- `Task.with_schedule_after`. -/
def Task.with_schedule_after (t : Task) (s : Option Datetime) : Task :=
  { t with schedule_after := s }

/-- `Task.__eq__`: all four fields, record compared structurally. -/
def Task.beq (a b : Task) : Bool :=
  decide (a.instr = b.instr) && Record.beq a.record b.record &&
  decide (a.retries = b.retries) && decide (a.schedule_after = b.schedule_after)

/-! ### Python's `heapq` on a list of `Task`s

`asyncio.PriorityQueue` stores its items in a plain list and calls
`heapq.heappush` / `heapq.heappop` on it; `heapq` compares items only
with `<`, which for `Task` is `Task.__lt__`, i.e. `key · < key ·`.
The functions below are the CPython `heapq._siftdown`,
`heapq._siftup`, `heappush` and `heappop` loops written as recursions
over the backing list; out-of-range reads (`getD`) never occur on the
index ranges the algorithms touch. -/

/-- `heapq._siftdown(heap, startpos, pos)` with `newitem = heap[pos]`
read at entry: bubble `newitem` towards the root while it is `<` its
parent (`parentpos = (pos - 1) >> 1`). -/
def siftdown (startpos : ℕ) (newitem : Task) (heap : List Task) (pos : ℕ) :
    List Task :=
  if _h : startpos < pos then
    if key newitem < key (heap.getD ((pos - 1) / 2) default) then
      siftdown startpos newitem
        (heap.set pos (heap.getD ((pos - 1) / 2) default)) ((pos - 1) / 2)
    else heap.set pos newitem
  else heap.set pos newitem
termination_by pos
decreasing_by omega

/-- The child `heapq._siftup` shifts up into the hole at `pos`: the
right child `2*pos+2` when it exists and the left child is not `<`
it, else the left child `2*pos+1`. -/
def childSel (heap : List Task) (pos : ℕ) : ℕ :=
  if 2 * pos + 2 < heap.length ∧
      ¬ key (heap.getD (2 * pos + 1) default) <
        key (heap.getD (2 * pos + 2) default)
    then 2 * pos + 2 else 2 * pos + 1

/-- The loop of `heapq._siftup(heap, pos)`: move the selected child up
into `pos` until `pos` has no child, returning the final hole
position and the shifted list (`newitem` is written back and bubbled
up by the trailing `_siftdown` in `siftup`). -/
def siftupLoop (newitem : Task) (heap : List Task) (pos : ℕ) :
    ℕ × List Task :=
  if _h : 2 * pos + 1 < heap.length then
    siftupLoop newitem
      (heap.set pos (heap.getD (childSel heap pos) default)) (childSel heap pos)
  else (pos, heap)
termination_by heap.length - pos
decreasing_by
  simp only [List.length_set, childSel]
  split <;> omega

/-- `heapq._siftup(heap, pos)`: shift the smaller-child chain up,
place `newitem` in the final hole, then `_siftdown` it. -/
def siftup (heap : List Task) (pos : ℕ) : List Task :=
  let newitem := heap.getD pos default
  let fp := siftupLoop newitem heap pos
  siftdown pos newitem (fp.2.set fp.1 newitem) fp.1

/-- `heapq.heappush`: append, then `_siftdown(heap, 0, len(heap)-1)`. -/
def heappush (heap : List Task) (item : Task) : List Task :=
  siftdown 0 item (heap ++ [item]) heap.length

/-- `heapq.heappop`: pop the last element; if the heap is still
nonempty, return `heap[0]`, move the last element to the root and
`_siftup`; an empty heap raises (the `asyncio` queue instead blocks,
which the queue model treats as no result). -/
def heappop (heap : List Task) : Option (Task × List Task) :=
  if heap.isEmpty then none
  else if heap.dropLast.isEmpty then some (heap.getLastD default, [])
  else some (heap.dropLast.getD 0 default,
    siftup (heap.dropLast.set 0 (heap.getLastD default)) 0)

/-! ### List access lemmas used by the heap proofs -/

theorem getD_set_self {α : Type} (l : List α) (i : ℕ) (x d : α)
    (h : i < l.length) : (l.set i x).getD i d = x := by
  induction l generalizing i with
  | nil => simp at h
  | cons a t ih =>
    cases i with
    | zero => rfl
    | succ j => exact ih j (by simpa using h)

theorem getD_set_ne {α : Type} (l : List α) (i j : ℕ) (x d : α)
    (h : i ≠ j) : (l.set i x).getD j d = l.getD j d := by
  induction l generalizing i j with
  | nil => simp [List.set]
  | cons a t ih =>
    cases i with
    | zero =>
      cases j with
      | zero => exact absurd rfl h
      | succ j2 => rfl
    | succ i2 =>
      cases j with
      | zero => rfl
      | succ j2 => exact ih i2 j2 (fun he => h (by rw [he]))

theorem getD_append_left {α : Type} (l₁ l₂ : List α) (i : ℕ) (d : α)
    (h : i < l₁.length) : (l₁ ++ l₂).getD i d = l₁.getD i d := by
  induction l₁ generalizing i with
  | nil => simp at h
  | cons a t ih =>
    cases i with
    | zero => rfl
    | succ j => exact ih j (by simpa using h)

theorem getD_append_len {α : Type} (l₁ : List α) (x d : α) :
    (l₁ ++ [x]).getD l₁.length d = x := by
  induction l₁ with
  | nil => rfl
  | cons a t ih => exact ih

/-! ### The heap operations permute the backing list -/

theorem set_count (l : List Task) (i : ℕ) (x a : Task) (h : i < l.length) :
    (l.set i x).count a + (if l.getD i default = a then 1 else 0) =
      l.count a + (if x = a then 1 else 0) := by
  induction l generalizing i with
  | nil => simp at h
  | cons b t ih =>
    cases i with
    | zero =>
      simp only [List.set, List.getD_cons_zero, List.count_cons, beq_iff_eq]
      omega
    | succ j =>
      have := ih j (by simpa using h)
      simp only [List.set, List.getD_cons_succ, List.count_cons, beq_iff_eq]
      omega

theorem siftdown_length (s : ℕ) (ni : Task) :
    ∀ pos heap, (siftdown s ni heap pos).length = heap.length := by
  intro pos
  induction pos using Nat.strong_induction_on with
  | _ pos ih =>
    intro heap
    rw [siftdown]
    split
    · split
      · rw [ih _ (by omega)]
        simp
      · simp
    · simp

theorem siftdown_count (s : ℕ) (ni : Task) :
    ∀ pos heap, pos < heap.length → ∀ a : Task,
      (siftdown s ni heap pos).count a +
          (if heap.getD pos default = a then 1 else 0) =
        heap.count a + (if ni = a then 1 else 0) := by
  intro pos
  induction pos using Nat.strong_induction_on with
  | _ pos ih =>
    intro heap hpos a
    rw [siftdown]
    split
    · split
      · rename_i hs hlt
        have hrec := ih ((pos - 1) / 2) (by omega)
          (heap.set pos (heap.getD ((pos - 1) / 2) default))
          (by simp; omega) a
        have hget : (heap.set pos (heap.getD ((pos - 1) / 2) default)).getD
            ((pos - 1) / 2) default = heap.getD ((pos - 1) / 2) default :=
          getD_set_ne _ _ _ _ _ (by omega)
        have hset := set_count heap pos (heap.getD ((pos - 1) / 2) default) a hpos
        rw [hget] at hrec
        omega
      · have := set_count heap pos ni a hpos
        omega
    · have := set_count heap pos ni a hpos
      omega

theorem childSel_gt (heap : List Task) (pos : ℕ) : pos < childSel heap pos := by
  rw [childSel]; split <;> omega

theorem childSel_lt (heap : List Task) (pos : ℕ)
    (h : 2 * pos + 1 < heap.length) : childSel heap pos < heap.length := by
  rw [childSel]; split <;> omega

theorem siftupLoop_length (ni : Task) :
    ∀ n pos heap, heap.length - pos = n →
      (siftupLoop ni heap pos).2.length = heap.length := by
  intro n
  induction n using Nat.strong_induction_on with
  | _ n ih =>
    intro pos heap hn
    rw [siftupLoop]
    split
    · rename_i hch
      have h1 := childSel_gt heap pos
      have h2 := childSel_lt heap pos hch
      have hrec := ih (heap.length - childSel heap pos) (by omega)
        (childSel heap pos)
        (heap.set pos (heap.getD (childSel heap pos) default))
        (by simp)
      simp only [List.length_set] at hrec
      exact hrec
    · rfl

theorem siftupLoop_pos_lt (ni : Task) :
    ∀ n pos heap, heap.length - pos = n → pos < heap.length →
      (siftupLoop ni heap pos).1 < heap.length := by
  intro n
  induction n using Nat.strong_induction_on with
  | _ n ih =>
    intro pos heap hn hpos
    rw [siftupLoop]
    split
    · rename_i hch
      have h1 := childSel_gt heap pos
      have h2 := childSel_lt heap pos hch
      have hrec := ih (heap.length - childSel heap pos) (by omega)
        (childSel heap pos)
        (heap.set pos (heap.getD (childSel heap pos) default))
        (by simp) (by simp; omega)
      simpa using hrec
    · exact hpos

theorem siftupLoop_count (ni : Task) :
    ∀ n pos heap, heap.length - pos = n → pos < heap.length → ∀ a : Task,
      (siftupLoop ni heap pos).2.count a +
          (if heap.getD pos default = a then 1 else 0) =
        heap.count a +
          (if (siftupLoop ni heap pos).2.getD (siftupLoop ni heap pos).1 default = a
            then 1 else 0) := by
  intro n
  induction n using Nat.strong_induction_on with
  | _ n ih =>
    intro pos heap hn hpos a
    rw [siftupLoop]
    split
    · rename_i hch
      have h1 := childSel_gt heap pos
      have h2 := childSel_lt heap pos hch
      have hrec := ih (heap.length - childSel heap pos) (by omega)
        (childSel heap pos)
        (heap.set pos (heap.getD (childSel heap pos) default))
        (by simp) (by simp; omega) a
      have hget : (heap.set pos (heap.getD (childSel heap pos) default)).getD
          (childSel heap pos) default = heap.getD (childSel heap pos) default :=
        getD_set_ne _ _ _ _ _ (by omega)
      have hset := set_count heap pos (heap.getD (childSel heap pos) default) a hpos
      rw [hget] at hrec
      omega
    · simp

theorem siftup_count (heap : List Task) (h : 0 < heap.length) (a : Task) :
    (siftup heap 0).count a = heap.count a := by
  rw [siftup]
  have h1 := siftupLoop_count (heap.getD 0 default) (heap.length - 0) 0 heap rfl h a
  have hl := siftupLoop_length (heap.getD 0 default) (heap.length - 0) 0 heap rfl
  have hp := siftupLoop_pos_lt (heap.getD 0 default) (heap.length - 0) 0 heap rfl h
  set fp := siftupLoop (heap.getD 0 default) heap 0 with hfp
  have h2 := set_count fp.2 fp.1 (heap.getD 0 default) a (by omega)
  have h3 := siftdown_count 0 (heap.getD 0 default) fp.1
    (fp.2.set fp.1 (heap.getD 0 default)) (by simp; omega) a
  have h4 : (fp.2.set fp.1 (heap.getD 0 default)).getD fp.1 default =
      heap.getD 0 default :=
    getD_set_self _ _ _ _ (by omega)
  rw [h4] at h3
  omega

theorem count_singleton_ite (x a : Task) :
    List.count a [x] = if x = a then 1 else 0 := by
  by_cases hx : x = a <;> simp [List.count_cons, hx]

theorem heappush_count (heap : List Task) (item a : Task) :
    (heappush heap item).count a =
      heap.count a + (if item = a then 1 else 0) := by
  rw [heappush]
  have h1 := siftdown_count 0 item heap.length (heap ++ [item]) (by simp) a
  have h2 : (heap ++ [item]).getD heap.length default = item :=
    getD_append_len _ _ _
  rw [h2] at h1
  simp only [List.count_append, count_singleton_ite] at h1
  omega

/-! ### The heap-order invariant

`heapq` maintains `heap[(j-1)//2] <= heap[j]` for every index; for
`Task`s, whose `<` is `key · < key ·` on a total order of naturals,
this renders as the `IsHeap` predicate below, and it makes `heap[0]`
a task of minimal key. -/

def parentIdx (j : ℕ) : ℕ := (j - 1) / 2

def IsHeap (h : List Task) : Prop :=
  ∀ j, 0 < j → j < h.length →
    key (h.getD (parentIdx j) default) ≤ key (h.getD j default)

theorem parentIdx_lt {j : ℕ} (h : 0 < j) : parentIdx j < j := by
  rw [parentIdx]; omega

/-- Bubbling `newitem` up from a hole at `pos` restores the heap
order, provided the array is heap-ordered away from the hole and the
hole's children dominate the hole's parent. -/
theorem siftdown_isHeap :
    ∀ pos heap (ni : Task), pos < heap.length →
      (∀ j, 0 < j → j < heap.length → j ≠ pos →
        key ((heap.set pos ni).getD (parentIdx j) default) ≤
          key ((heap.set pos ni).getD j default)) →
      (∀ j, j < heap.length → j ≠ pos → parentIdx j = pos →
        key (heap.getD (parentIdx pos) default) ≤ key (heap.getD j default)) →
      IsHeap (siftdown 0 ni heap pos) := by
  intro pos
  induction pos using Nat.strong_induction_on with
  | _ pos ih =>
    intro heap ni hpos h2 h3
    rw [siftdown, show (pos - 1) / 2 = parentIdx pos from rfl]
    split
    · rename_i hpos0
      split
      · rename_i hlt
        have hpplt : parentIdx pos < pos := parentIdx_lt hpos0
        -- swap: the parent moves down into `pos`, the hole moves to
        -- `parentIdx pos`; re-establish both invariants there
        refine ih (parentIdx pos) (parentIdx_lt hpos0)
          (heap.set pos (heap.getD (parentIdx pos) default)) ni
          (by simp; omega) ?_ ?_
        · -- pairs away from the new hole
          intro j hj0 hjl hjp
          simp only [List.length_set] at hjl
          have hppos : parentIdx pos < pos := parentIdx_lt hpos0
          by_cases hj1 : j = pos
          · -- the old hole: now holds the parent, child of the new hole
            subst hj1
            have e1 : ((heap.set j (heap.getD (parentIdx j) default)).set
                (parentIdx j) ni).getD (parentIdx j) default = ni :=
              getD_set_self _ _ _ _ (by simp; omega)
            have e2 : ((heap.set j (heap.getD (parentIdx j) default)).set
                (parentIdx j) ni).getD j default =
                heap.getD (parentIdx j) default := by
              rw [getD_set_ne _ _ _ _ _ (by omega),
                getD_set_self _ _ _ _ (by omega)]
            rw [e1, e2]
            omega
          · by_cases hj2 : parentIdx j = pos
            · -- children of the old hole: dominate the moved parent
              have hjgt : pos < j := by
                have := parentIdx_lt hj0
                omega
              have e1 : ((heap.set pos (heap.getD (parentIdx pos) default)).set
                  (parentIdx pos) ni).getD (parentIdx j) default =
                  heap.getD (parentIdx pos) default := by
                rw [hj2, getD_set_ne _ _ _ _ _ (by omega),
                  getD_set_self _ _ _ _ (by omega)]
              have e2 : ((heap.set pos (heap.getD (parentIdx pos) default)).set
                  (parentIdx pos) ni).getD j default = heap.getD j default := by
                rw [getD_set_ne _ _ _ _ _ (by omega),
                  getD_set_ne _ _ _ _ _ (by omega)]
              rw [e1, e2]
              exact h3 j hjl hj1 hj2
            · by_cases hj3 : parentIdx j = parentIdx pos
              · -- children of the new hole: they dominated the parent
                -- that sat there, and `ni` is even smaller
                have e1 : ((heap.set pos (heap.getD (parentIdx pos) default)).set
                    (parentIdx pos) ni).getD (parentIdx j) default = ni := by
                  rw [hj3]
                  exact getD_set_self _ _ _ _ (by simp; omega)
                have e2 : ((heap.set pos (heap.getD (parentIdx pos) default)).set
                    (parentIdx pos) ni).getD j default = heap.getD j default := by
                  rw [getD_set_ne _ _ _ _ _ (by omega),
                    getD_set_ne _ _ _ _ _ (by omega)]
                rw [e1, e2]
                have hpair := h2 j hj0 hjl hj1
                have f1 : (heap.set pos ni).getD (parentIdx j) default =
                    heap.getD (parentIdx pos) default := by
                  rw [hj3, getD_set_ne _ _ _ _ _ (by omega)]
                have f2 : (heap.set pos ni).getD j default =
                    heap.getD j default :=
                  getD_set_ne _ _ _ _ _ (by omega)
                rw [f1, f2] at hpair
                omega
              · -- pairs not touching either hole
                have e1 : ((heap.set pos (heap.getD (parentIdx pos) default)).set
                    (parentIdx pos) ni).getD (parentIdx j) default =
                    heap.getD (parentIdx j) default := by
                  rw [getD_set_ne _ _ _ _ _ (by omega),
                    getD_set_ne _ _ _ _ _ (by omega)]
                have e2 : ((heap.set pos (heap.getD (parentIdx pos) default)).set
                    (parentIdx pos) ni).getD j default = heap.getD j default := by
                  rw [getD_set_ne _ _ _ _ _ (by omega),
                    getD_set_ne _ _ _ _ _ (by omega)]
                rw [e1, e2]
                have hpair := h2 j hj0 hjl hj1
                have f1 : (heap.set pos ni).getD (parentIdx j) default =
                    heap.getD (parentIdx j) default :=
                  getD_set_ne _ _ _ _ _ (by omega)
                have f2 : (heap.set pos ni).getD j default =
                    heap.getD j default :=
                  getD_set_ne _ _ _ _ _ (by omega)
                rw [f1, f2] at hpair
                exact hpair
        · -- children of the new hole dominate its parent
          intro j hjl hjp hpj
          simp only [List.length_set] at hjl
          have hppos : parentIdx pos < pos := parentIdx_lt hpos0
          have hgp : parentIdx (parentIdx pos) ≤ parentIdx pos := by
            rw [parentIdx, parentIdx]; omega
          have e0 : (heap.set pos (heap.getD (parentIdx pos) default)).getD
              (parentIdx (parentIdx pos)) default =
              heap.getD (parentIdx (parentIdx pos)) default :=
            getD_set_ne _ _ _ _ _ (by omega)
          have hgpp : key (heap.getD (parentIdx (parentIdx pos)) default) ≤
              key (heap.getD (parentIdx pos) default) := by
            by_cases hp0 : parentIdx pos = 0
            · rw [hp0]
              have : parentIdx 0 = 0 := by rw [parentIdx]
              rw [this]
            · have hpair := h2 (parentIdx pos) (by omega) (by omega) (by omega)
              have f1 : (heap.set pos ni).getD (parentIdx (parentIdx pos))
                  default = heap.getD (parentIdx (parentIdx pos)) default :=
                getD_set_ne _ _ _ _ _ (by omega)
              have f2 : (heap.set pos ni).getD (parentIdx pos) default =
                  heap.getD (parentIdx pos) default :=
                getD_set_ne _ _ _ _ _ (by omega)
              rw [f1, f2] at hpair
              exact hpair
          rw [e0]
          by_cases hj1 : j = pos
          · subst hj1
            have e1 : (heap.set j (heap.getD (parentIdx j) default)).getD j
                default = heap.getD (parentIdx j) default :=
              getD_set_self _ _ _ _ (by omega)
            rw [e1]
            exact hgpp
          · have hjgt : parentIdx pos < j := by
              have h0j : 0 < j := by
                rcases Nat.eq_zero_or_pos j with hj0 | hj0
                · subst hj0
                  rw [parentIdx] at hpj
                  omega
                · exact hj0
              have := parentIdx_lt h0j
              omega
            have e1 : (heap.set pos (heap.getD (parentIdx pos) default)).getD j
                default = heap.getD j default :=
              getD_set_ne _ _ _ _ _ (by omega)
            rw [e1]
            have h0j : 0 < j := by omega
            have hpair := h2 j h0j hjl hj1
            have f1 : (heap.set pos ni).getD (parentIdx j) default =
                heap.getD (parentIdx pos) default := by
              rw [hpj, getD_set_ne _ _ _ _ _ (by omega)]
            have f2 : (heap.set pos ni).getD j default =
                heap.getD j default :=
              getD_set_ne _ _ _ _ _ (by omega)
            rw [f1, f2] at hpair
            omega
      · -- no swap: `ni` sits at `pos` and respects its parent
        rename_i hnlt
        intro j hj0 hjl
        simp only [List.length_set] at hjl
        by_cases hj1 : j = pos
        · subst hj1
          have e1 : (heap.set j ni).getD j default = ni :=
            getD_set_self _ _ _ _ (by omega)
          have e2 : (heap.set j ni).getD (parentIdx j) default =
              heap.getD (parentIdx j) default :=
            getD_set_ne _ _ _ _ _ (by have := parentIdx_lt hj0; omega)
          rw [e1, e2]
          omega
        · exact h2 j hj0 hjl hj1
    · -- pos = 0: the root has no parent
      rename_i hpos0
      have hp0 : pos = 0 := by omega
      subst hp0
      intro j hj0 hjl
      simp only [List.length_set] at hjl
      exact h2 j hj0 hjl (by omega)

theorem heappush_isHeap (heap : List Task) (x : Task) (hh : IsHeap heap) :
    IsHeap (heappush heap x) := by
  rw [heappush]
  refine siftdown_isHeap heap.length (heap ++ [x]) x (by simp) ?_ ?_
  · intro j hj0 hjl hjp
    simp only [List.length_append, List.length_cons, List.length_nil] at hjl
    have hjlt : j < heap.length := by omega
    have hplt : parentIdx j < heap.length := by
      have := parentIdx_lt hj0
      omega
    have e1 : ((heap ++ [x]).set heap.length x).getD (parentIdx j) default =
        heap.getD (parentIdx j) default := by
      rw [getD_set_ne _ _ _ _ _ (by omega), getD_append_left _ _ _ _ hplt]
    have e2 : ((heap ++ [x]).set heap.length x).getD j default =
        heap.getD j default := by
      rw [getD_set_ne _ _ _ _ _ (by omega), getD_append_left _ _ _ _ hjlt]
    rw [e1, e2]
    exact hh j hj0 hjlt
  · intro j hjl hjp hpj
    rw [parentIdx] at hpj
    simp only [List.length_append, List.length_cons, List.length_nil] at hjl
    omega

theorem childSel_parent (heap : List Task) (pos : ℕ) :
    parentIdx (childSel heap pos) = pos := by
  rw [childSel]
  split <;> (rw [parentIdx]; omega)

theorem childSel_min (heap : List Task) (pos : ℕ)
    (hch : 2 * pos + 1 < heap.length) :
    ∀ j, j < heap.length → parentIdx j = pos → j ≠ pos →
      key (heap.getD (childSel heap pos) default) ≤
        key (heap.getD j default) := by
  intro j hjl hpj hjp
  have hj12 : j = 2 * pos + 1 ∨ j = 2 * pos + 2 := by
    rw [parentIdx] at hpj
    omega
  rw [childSel]
  split
  · rename_i hcond
    obtain ⟨hc1, hc2⟩ := hcond
    rcases hj12 with hj | hj <;> subst hj <;> omega
  · rename_i hcond
    rcases hj12 with hj | hj <;> subst hj
    · omega
    · have hlr : key (heap.getD (2 * pos + 1) default) <
          key (heap.getD (2 * pos + 2) default) := by
        by_contra hc
        exact hcond ⟨hjl, hc⟩
      omega

theorem siftupLoop_isHeap (ni : Task) :
    ∀ n pos heap, heap.length - pos = n → pos < heap.length →
      (∀ j, 0 < j → j < heap.length → j ≠ pos → parentIdx j ≠ pos →
        key (heap.getD (parentIdx j) default) ≤ key (heap.getD j default)) →
      (∀ j, j < heap.length → parentIdx j = pos → j ≠ pos → 0 < pos →
        key (heap.getD (parentIdx pos) default) ≤ key (heap.getD j default)) →
      ((∀ j, 0 < j → j < heap.length → j ≠ (siftupLoop ni heap pos).1 →
          parentIdx j ≠ (siftupLoop ni heap pos).1 →
          key ((siftupLoop ni heap pos).2.getD (parentIdx j) default) ≤
            key ((siftupLoop ni heap pos).2.getD j default)) ∧
        (∀ j, j < heap.length → parentIdx j = (siftupLoop ni heap pos).1 →
          j ≠ (siftupLoop ni heap pos).1 → 0 < (siftupLoop ni heap pos).1 →
          key ((siftupLoop ni heap pos).2.getD
              (parentIdx (siftupLoop ni heap pos).1) default) ≤
            key ((siftupLoop ni heap pos).2.getD j default)) ∧
        2 * (siftupLoop ni heap pos).1 + 1 ≥ heap.length) := by
  intro n
  induction n using Nat.strong_induction_on with
  | _ n ih =>
    intro pos heap hn hpos hA hB
    rw [siftupLoop]
    split
    · rename_i hch
      have hcgt := childSel_gt heap pos
      have hclt := childSel_lt heap pos hch
      have hcp := childSel_parent heap pos
      have hmin := childSel_min heap pos hch
      -- invariants for the hole at the selected child
      have hA2 : ∀ j, 0 < j →
          j < (heap.set pos (heap.getD (childSel heap pos) default)).length →
          j ≠ childSel heap pos → parentIdx j ≠ childSel heap pos →
          key ((heap.set pos (heap.getD (childSel heap pos) default)).getD
              (parentIdx j) default) ≤
            key ((heap.set pos (heap.getD (childSel heap pos) default)).getD
              j default) := by
        intro j hj0 hjl hjc hpjc
        simp only [List.length_set] at hjl
        by_cases hjpos : j = pos
        · subst hjpos
          have e1 : (heap.set j (heap.getD (childSel heap j) default)).getD
              (parentIdx j) default = heap.getD (parentIdx j) default :=
            getD_set_ne _ _ _ _ _ (by have := parentIdx_lt hj0; omega)
          have e2 : (heap.set j (heap.getD (childSel heap j) default)).getD
              j default = heap.getD (childSel heap j) default :=
            getD_set_self _ _ _ _ (by omega)
          rw [e1, e2]
          exact hB (childSel heap j) hclt hcp (by omega) hj0
        · by_cases hpjpos : parentIdx j = pos
          · have e1 : (heap.set pos (heap.getD (childSel heap pos) default)).getD
                (parentIdx j) default = heap.getD (childSel heap pos) default := by
              rw [hpjpos]
              exact getD_set_self _ _ _ _ (by omega)
            have e2 : (heap.set pos (heap.getD (childSel heap pos) default)).getD
                j default = heap.getD j default :=
              getD_set_ne _ _ _ _ _ (by omega)
            rw [e1, e2]
            exact hmin j hjl hpjpos hjpos
          · have e1 : (heap.set pos (heap.getD (childSel heap pos) default)).getD
                (parentIdx j) default = heap.getD (parentIdx j) default :=
              getD_set_ne _ _ _ _ _ (by omega)
            have e2 : (heap.set pos (heap.getD (childSel heap pos) default)).getD
                j default = heap.getD j default :=
              getD_set_ne _ _ _ _ _ (by omega)
            rw [e1, e2]
            exact hA j hj0 hjl hjpos hpjpos
      have hB2 : ∀ j,
          j < (heap.set pos (heap.getD (childSel heap pos) default)).length →
          parentIdx j = childSel heap pos → j ≠ childSel heap pos →
          0 < childSel heap pos →
          key ((heap.set pos (heap.getD (childSel heap pos) default)).getD
              (parentIdx (childSel heap pos)) default) ≤
            key ((heap.set pos (heap.getD (childSel heap pos) default)).getD
              j default) := by
        intro j hjl hpjc hjc hc0
        simp only [List.length_set] at hjl
        have hjgt : childSel heap pos < j := by
          have hj0 : 0 < j := by
            rcases Nat.eq_zero_or_pos j with h0 | h0
            · subst h0
              rw [parentIdx] at hpjc
              omega
            · exact h0
          have := parentIdx_lt hj0
          omega
        have e1 : (heap.set pos (heap.getD (childSel heap pos) default)).getD
            (parentIdx (childSel heap pos)) default =
            heap.getD (childSel heap pos) default := by
          rw [hcp]
          exact getD_set_self _ _ _ _ (by omega)
        have e2 : (heap.set pos (heap.getD (childSel heap pos) default)).getD
            j default = heap.getD j default :=
          getD_set_ne _ _ _ _ _ (by omega)
        rw [e1, e2]
        have := hA j (by omega) hjl (by omega) (by rw [hpjc]; omega)
        rw [hpjc] at this
        exact this
      have hrec := ih (heap.length - childSel heap pos) (by omega)
        (childSel heap pos)
        (heap.set pos (heap.getD (childSel heap pos) default))
        (by simp) (by simp; omega) hA2 hB2
      simp only [List.length_set] at hrec
      exact hrec
    · exact ⟨hA, hB, by omega⟩

theorem siftdown_after_loop (h2 : List Task) (f : ℕ) (ni : Task)
    (hfl : f < h2.length) (hnc : 2 * f + 1 ≥ h2.length)
    (hA2 : ∀ j, 0 < j → j < h2.length → j ≠ f → parentIdx j ≠ f →
      key (h2.getD (parentIdx j) default) ≤ key (h2.getD j default)) :
    IsHeap (siftdown 0 ni (h2.set f ni) f) := by
  refine siftdown_isHeap f (h2.set f ni) ni (by simp; omega) ?_ ?_
  · intro j hj0 hjl hjp
    simp only [List.length_set] at hjl
    by_cases hpj : parentIdx j = f
    · rw [parentIdx] at hpj
      omega
    · have e1 : (((h2.set f ni)).set f ni).getD (parentIdx j) default =
          h2.getD (parentIdx j) default := by
        rw [getD_set_ne _ _ _ _ _ (fun he => hpj he.symm),
          getD_set_ne _ _ _ _ _ (fun he => hpj he.symm)]
      have e2 : (((h2.set f ni)).set f ni).getD j default =
          h2.getD j default := by
        rw [getD_set_ne _ _ _ _ _ (fun he => hjp he.symm),
          getD_set_ne _ _ _ _ _ (fun he => hjp he.symm)]
      rw [e1, e2]
      exact hA2 j hj0 hjl hjp hpj
  · intro j hjl hjp hpj
    simp only [List.length_set] at hjl
    rw [parentIdx] at hpj
    omega

theorem siftup_isHeap (heap : List Task) (h0 : 0 < heap.length)
    (hA : ∀ j, 0 < j → j < heap.length → parentIdx j ≠ 0 →
      key (heap.getD (parentIdx j) default) ≤ key (heap.getD j default)) :
    IsHeap (siftup heap 0) := by
  obtain ⟨hA2, hB2, hnc⟩ := siftupLoop_isHeap (heap.getD 0 default)
    (heap.length - 0) 0 heap rfl h0
    (fun j hj0 hjl hjp hpjp => hA j hj0 hjl hpjp)
    (fun j hjl hpj hjp h00 => absurd h00 (by omega))
  have hfl : (siftupLoop (heap.getD 0 default) heap 0).1 < heap.length :=
    siftupLoop_pos_lt (heap.getD 0 default) (heap.length - 0) 0 heap rfl h0
  have hl2 : (siftupLoop (heap.getD 0 default) heap 0).2.length = heap.length :=
    siftupLoop_length (heap.getD 0 default) (heap.length - 0) 0 heap rfl
  show IsHeap (siftdown 0 (heap.getD 0 default)
    ((siftupLoop (heap.getD 0 default) heap 0).2.set
      (siftupLoop (heap.getD 0 default) heap 0).1 (heap.getD 0 default))
    (siftupLoop (heap.getD 0 default) heap 0).1)
  refine siftdown_after_loop _ _ _ (by omega) (by omega) ?_
  intro j hj0 hjl hjp hpj
  exact hA2 j hj0 (by omega) hjp hpj

theorem getD_dropLast (l : List Task) (i : ℕ) (h : i < l.length - 1) :
    l.dropLast.getD i default = l.getD i default := by
  induction l generalizing i with
  | nil => simp at h
  | cons a t ih =>
    cases t with
    | nil => simp at h
    | cons b t2 =>
      cases i with
      | zero => rfl
      | succ j =>
        have : j < (b :: t2).length - 1 := by
          simp at h ⊢
          omega
        exact ih j this

theorem heappop_isHeap (heap : List Task) (t : Task) (rest : List Task)
    (hh : IsHeap heap) (hp : heappop heap = some (t, rest)) : IsHeap rest := by
  rw [heappop] at hp
  split at hp
  · exact absurd hp (by simp)
  · rename_i hne
    split at hp
    · injection hp with h1
      injection h1 with ht hr
      subst hr
      intro j hj0 hjl
      simp at hjl
    · rename_i hre
      injection hp with h1
      injection h1 with ht hr
      subst hr
      have hlen2 : 0 < heap.dropLast.length := by
        rcases hd : heap.dropLast with _ | ⟨b, tl⟩
        · rw [hd] at hre
          simp at hre
        · simp [hd]
      refine siftup_isHeap _ (by simpa using hlen2) ?_
      intro j hj0 hjl hpj0
      simp only [List.length_set] at hjl
      have hjlt : j < heap.length - 1 := by
        simp at hjl
        omega
      have hplt : parentIdx j < heap.length - 1 := by
        have := parentIdx_lt hj0
        omega
      have e1 : (heap.dropLast.set 0 (heap.getLastD default)).getD
          (parentIdx j) default = heap.getD (parentIdx j) default := by
        rw [getD_set_ne _ _ _ _ _ (fun he => hpj0 he.symm),
          getD_dropLast _ _ hplt]
      have e2 : (heap.dropLast.set 0 (heap.getLastD default)).getD j default =
          heap.getD j default := by
        rw [getD_set_ne _ _ _ _ _ (by omega), getD_dropLast _ _ hjlt]
      rw [e1, e2]
      exact hh j hj0 (by omega)

theorem isHeap_zero_min (heap : List Task) (hh : IsHeap heap) :
    ∀ j, j < heap.length →
      key (heap.getD 0 default) ≤ key (heap.getD j default) := by
  intro j
  induction j using Nat.strong_induction_on with
  | _ j ih =>
    intro hjl
    rcases Nat.eq_zero_or_pos j with h0 | h0
    · subst h0
      exact le_rfl
    · have h1 := ih (parentIdx j) (parentIdx_lt h0)
        (by have := parentIdx_lt h0; omega)
      have h2 := hh j h0 hjl
      omega

theorem mem_exists_getD (l : List Task) (x : Task) (hx : x ∈ l) :
    ∃ j, j < l.length ∧ l.getD j default = x := by
  induction l with
  | nil => cases hx
  | cons a t ih =>
    rcases List.mem_cons.mp hx with h | h
    · exact ⟨0, by simp, h.symm⟩
    · obtain ⟨j, hj, he⟩ := ih h
      exact ⟨j + 1, by simp; omega, he⟩

/-- The task `heappop` returns has minimal key among the pending
tasks: `heap[0]` dominates nothing. -/
theorem heappop_min (heap : List Task) (t : Task) (rest : List Task)
    (hh : IsHeap heap) (hp : heappop heap = some (t, rest)) :
    ∀ x ∈ heap, key t ≤ key x := by
  intro x hx
  obtain ⟨j, hjl, hje⟩ := mem_exists_getD heap x hx
  have hne2 : heap ≠ [] := by
    intro he
    rw [he] at hx
    cases hx
  have ht0 : t = heap.getD 0 default := by
    rw [heappop] at hp
    split at hp
    · exact absurd hp (by simp)
    · split at hp
      · rename_i hre
        injection hp with h1
        injection h1 with ht hr
        have hdr : heap.dropLast = [] := by
          simpa [List.isEmpty_iff] using hre
        rcases heap with _ | ⟨b, tl⟩
        · exact absurd rfl hne2
        · have htl : tl = [] := by
            have : (b :: tl).length - 1 = 0 := by
              rw [← List.length_dropLast, hdr]
              rfl
            simpa using this
          subst htl
          rw [← ht]
          rfl
      · rename_i hre
        injection hp with h1
        injection h1 with ht hr
        have hlen2 : 0 < heap.dropLast.length := by
          rcases hd : heap.dropLast with _ | ⟨b, tl⟩
          · rw [hd] at hre
            simp at hre
          · simp [hd]
        rw [← ht, getD_dropLast _ _ (by simp at hlen2 ⊢; omega)]
  rw [ht0, ← hje]
  exact isHeap_zero_min heap hh j hjl

/-! ### Heaps reachable through push/pop are heap-ordered -/

inductive Reachable : List Task → Prop
  | nil : Reachable []
  | push (h : List Task) (t : Task) : Reachable h → Reachable (heappush h t)
  | pop (h h2 : List Task) (t : Task) : Reachable h →
      heappop h = some (t, h2) → Reachable h2

theorem Reachable.isHeap (h : List Task) (hr : Reachable h) : IsHeap h := by
  induction hr with
  | nil => intro j hj0 hjl; simp at hjl
  | push h t _ ih => exact heappush_isHeap h t ih
  | pop h h2 t _ hp ih => exact heappop_isHeap h t h2 ih hp

theorem count_dropLast_getLastD (l : List Task) (hl : l ≠ []) (a : Task) :
    l.count a =
      l.dropLast.count a + (if l.getLastD default = a then 1 else 0) := by
  have hld : l.getLastD default = l.getLast hl := by
    rcases l with _ | ⟨b, tl⟩
    · exact absurd rfl hl
    · simp [List.getLastD_eq_getLast?, List.getLast?_eq_getLast]
  conv_lhs => rw [← List.dropLast_append_getLast hl]
  rw [List.count_append, hld, count_singleton_ite]

theorem heappop_count (heap : List Task) (t : Task) (rest : List Task)
    (h : heappop heap = some (t, rest)) (a : Task) :
    heap.count a = rest.count a + (if t = a then 1 else 0) := by
  rw [heappop] at h
  split at h
  · exact absurd h (by simp)
  · rename_i hne
    have hne2 : heap ≠ [] := by
      simpa [List.isEmpty_iff] using hne
    have hcnt := count_dropLast_getLastD heap hne2 a
    split at h
    · rename_i hre
      injection h with h1
      injection h1 with ht hr
      have hdr : heap.dropLast = [] := by
        simpa [List.isEmpty_iff] using hre
      subst hr
      rw [hdr] at hcnt
      rw [← ht]
      simpa using hcnt
    · rename_i hre
      injection h with h1
      injection h1 with ht hr
      have hlen2 : 0 < heap.dropLast.length := by
        rcases hd : heap.dropLast with _ | ⟨b, tl⟩
        · rw [hd] at hre; simp at hre
        · simp [hd]
      have hsu : rest.count a =
          (heap.dropLast.set 0 (heap.getLastD default)).count a := by
        rw [← hr]
        exact siftup_count _ (by simpa using hlen2) a
      have hset := set_count heap.dropLast 0 (heap.getLastD default) a hlen2
      rw [ht] at hset
      omega

/-! ### `db.py`: the sqlite spill store `DBsqlite`

One table `auditorclient(record_id, site_id, instruction, record,
retries, schedule_after)` with primary key `(record_id, site_id,
instruction)`.  A row stores the instruction's int value, the record
as its JSON dump, and `'{schedule_after}'` — the Python `str` of the
optional datetime, so `None` becomes the literal string `"None"`. -/

structure Row where
  record_id : String
  site_id : String
  instruction : ℕ
  record : RecordDict
  retries : ℤ
  schedule_after : String
deriving DecidableEq, Repr

/-- `'{schedule_after}'` in `DBsqlite.put`: Python string interpolation
of an `Optional[datetime]`. -/
def pyStrOpt : Option Datetime → String
  | none => "None"
  | some d => dtStr d

/-- The row `DBsqlite.put` writes for a task. -/
def Task.mkRow (t : Task) : Row :=
  ⟨t.record.record_id, t.record.site_id, t.instr.val, t.record.as_dict,
    t.retries, pyStrOpt t.schedule_after⟩

/-- The primary key of a row. -/
def rowKey (r : Row) : String × String × ℕ :=
  (r.record_id, r.site_id, r.instruction)

/-- The primary-key triple of a task's row. -/
def taskKey (t : Task) : String × String × ℕ :=
  (t.record.record_id, t.record.site_id, t.instr.val)

/-- The table-level effect of the `INSERT INTO auditorclient VALUES
(...)` of `DBsqlite.put` once the statement text parses (see
`DBsqlite.put` below for the f-string layer): a plain insert, no
`OR REPLACE`; sqlite raises an `IntegrityError` when a row with the
same primary key already exists. -/
def dbPut (rows : List Row) (r : Row) : Except String (List Row) :=
  if rows.any (fun q => decide (rowKey q = rowKey r)) then
    Except.error "UNIQUE constraint failed: auditorclient"
  else Except.ok (rows ++ [r])

/-- The single-quote character, `chr(39)`. -/
def quoteChar : Char := Char.ofNat 39

/-- Whether a string contains a single quote. -/
def strHasQuote (s : String) : Bool :=
  s.data.any (fun c => decide (c = quoteChar))

/-- Quote check for an optional string field of the record dictionary
(serialized as `null` when absent). -/
def optStrHasQuote : Option String → Bool
  | none => false
  | some s => strHasQuote s

/-- Whether `record.as_json()` — `json.dumps` of `as_dict` — contains
a single quote.  `json.dumps` escapes backslashes, double quotes and
control characters but leaves single quotes untouched; the fixed keys
(`record_id`, `components`, `name`, ...), the punctuation and the
numeric values contribute none, so the dump contains a single quote
exactly when one of the string values of the record does. -/
def Record.jsonHasQuote (r : Record) : Bool :=
  strHasQuote r.record_id || strHasQuote r.site_id ||
    strHasQuote r.user_id || strHasQuote r.group_id ||
    r.components.any (fun c => strHasQuote c.name) ||
    optStrHasQuote r.start_time || optStrHasQuote r.stop_time

/-- Whether every text `DBsqlite.put` interpolates into its `INSERT`
f-string — `record.record_id()`, `record.site_id()`,
`record.as_json()` and `str(schedule_after)` — is free of single
quotes (`instr.value` and `retries` are numbers, interpolated outside
quotes).  `str` of a `datetime` or of `None` never contains a quote,
but the conjunct is kept because the f-string interpolates that text
all the same. -/
def Task.putTextOk (t : Task) : Bool :=
  !strHasQuote t.record.record_id && !strHasQuote t.record.site_id &&
    !t.record.jsonHasQuote && !strHasQuote (pyStrOpt t.schedule_after)

/-- Full `DBsqlite.put`, f-string layer included: the code builds
`INSERT INTO auditorclient VALUES ('{record_id}', '{site_id}',
{instr.value}, '{record.as_json()}', {retries}, '{schedule_after}')`
by plain interpolation, with no escaping anywhere.  A single quote
inside any interpolated text ends the surrounding SQL string literal
early, the statement no longer parses as this `INSERT`, and sqlite
raises an `OperationalError` at parse time — before any constraint
check.  With quote-free texts the statement parses to exactly the
intended row and the insert is the table-level `dbPut`. -/
def DBsqlite.put (rows : List Row) (t : Task) : Except String (List Row) :=
  if t.putTextOk then dbPut rows (Task.mkRow t)
  else Except.error "OperationalError: unrecognized token"

/-- `DBsqlite.delete`: `DELETE ... WHERE record_id=... AND site_id=...
AND instruction=...`. -/
def dbDelete (rows : List Row) (t : Task) : List Row :=
  rows.filter (fun q => decide (rowKey q ≠ taskKey t))

/-- One row of `DBsqlite.get_all`:
`Task(Instruction(row[2]), Record(json_str=row[3]),
row[4]).with_schedule_after(parser.parse(row[5]) if row[5] != "None"
else None)` — any failing conversion raises out of `get_all`. -/
def rowToTask (r : Row) : Except String Task :=
  match Instruction.fromVal r.instruction with
  | none => Except.error "ValueError: not a valid Instruction"
  | some i =>
    if r.schedule_after = "None" then
      Except.ok ⟨i, Record.fromJson r.record, r.retries, none⟩
    else
      match dtParse r.schedule_after with
      | none => Except.error "ParserError: unparseable schedule_after"
      | some d => Except.ok ⟨i, Record.fromJson r.record, r.retries, some d⟩

/-- `DBsqlite.get_all`: convert every row; the list comprehension has
no error handling, so the first bad row aborts the whole call. -/
def dbGetAll : List Row → Except String (List Task)
  | [] => Except.ok []
  | r :: rs =>
    match rowToTask r with
    | Except.error e => Except.error e
    | Except.ok t =>
      match dbGetAll rs with
      | Except.error e => Except.error e
      | Except.ok ts => Except.ok (t :: ts)

/-! ### `queue.py`: `Queue` over `asyncio.PriorityQueue` -/

/-- `Queue.start`: fresh `asyncio.PriorityQueue`, then every row of
`db.get_all()` is pushed; an exception from `get_all` propagates and
start-up aborts with nothing replayed. -/
def queueStart (rows : List Row) : Except String (List Task) :=
  match dbGetAll rows with
  | Except.error e => Except.error e
  | Except.ok ts => Except.ok (ts.foldl heappush [])

/-- The time gate of `Queue.get`: a task may be returned when
`schedule_after is None or datetime.now() > schedule_after`. -/
def due (t : Task) (now : Datetime) : Bool :=
  match t.schedule_after with
  | none => true
  | some s => dtLt s now

/-- The `while True` loop of `Queue.get`: pop the heap minimum; if it
is due, delete its row and hand it out (the code clears
`_schedule_after` with `wait_for_sec(None)` before returning — the
returned triple here keeps the popped task as popped, together with
the new heap, the new store and the `datetime.now()` of the returning
iteration); otherwise push it back (the store keeps its row) and
retry after `sleep_time`.  `clock i` is the `datetime.now()` of
iteration `i`; an empty heap blocks (`none` here), and `fuel` bounds
the iterations we observe. -/
def queueGetLoop (clock : ℕ → Datetime) (store : List Row) :
    List Task → ℕ → ℕ → Option (Task × List Task × List Row × Datetime)
  | _, _, 0 => none
  | heap, i, fuel + 1 =>
    match heappop heap with
    | none => none
    | some (t, h2) =>
      if due t (clock i) then some (t, h2, dbDelete store t, clock i)
      else queueGetLoop clock store (heappush h2 t) (i + 1) fuel

/-- `Queue.put(task, wait_for_sec)`: `task.wait_for_sec(...)` is
evaluated once for `db.put` and once more for the heap insert (two
separate `datetime.now()` calls, hence `now1`/`now2`); the `db.put`
comes first, so a failing insert leaves the heap untouched and the
error propagates to the caller. -/
def queuePut (heap : List Task) (store : List Row) (task : Task)
    (delay : Option ℕ) (now1 now2 : Datetime) :
    Except String (List Task × List Row) :=
  match dbPut store (Task.mkRow (task.wait_for_sec delay now1)) with
  | Except.error e => Except.error e
  | Except.ok store2 =>
    Except.ok (heappush heap (task.wait_for_sec delay now2), store2)

/-- `AuditorClient.add_record_queue(record)`: enqueue
`Task(Instruction.ADD, record, retries)`; there is no `try/except`,
so a `queue.put` failure propagates. -/
def add_record_queue (heap : List Task) (store : List Row) (record : Record)
    (retries : ℤ) (now1 now2 : Datetime) :
    Except String (List Task × List Row) :=
  queuePut heap store ⟨Instruction.ADD, record, retries, none⟩ none now1 now2

/-- `AuditorClient.update_record_queue(record)`. -/
def update_record_queue (heap : List Task) (store : List Row) (record : Record)
    (retries : ℤ) (now1 now2 : Datetime) :
    Except String (List Task × List Row) :=
  queuePut heap store ⟨Instruction.UPDATE, record, retries, none⟩ none now1 now2

/-! ### The durable-queue transition system

A state is the in-memory heap plus the sqlite rows.  The steps are
the state changes `queue.py` performs: a `Queue.put` (which either
persists-then-publishes or fails leaving both untouched), and the two
outcomes of one iteration of the `Queue.get` loop — claiming a due
task (row deleted) or re-inserting a gated one (row kept). -/

inductive QStep : (List Task × List Row) → (List Task × List Row) → Prop
  | putOk (h : List Task) (s : List Row) (t : Task) (delay : Option ℕ)
      (now1 now2 : Datetime) (h2 : List Task) (s2 : List Row) :
      queuePut h s t delay now1 now2 = Except.ok (h2, s2) →
      QStep (h, s) (h2, s2)
  | putFail (h : List Task) (s : List Row) (t : Task) (delay : Option ℕ)
      (now1 now2 : Datetime) (e : String) :
      queuePut h s t delay now1 now2 = Except.error e →
      QStep (h, s) (h, s)
  | claim (h : List Task) (s : List Row) (t : Task) (h2 : List Task)
      (now : Datetime) : heappop h = some (t, h2) → due t now = true →
      QStep (h, s) (h2, dbDelete s t)
  | regate (h : List Task) (s : List Row) (t : Task) (h2 : List Task)
      (now : Datetime) : heappop h = some (t, h2) → due t now = false →
      QStep (h, s) (heappush h2 t, s)

inductive QReach : (List Task × List Row) → Prop
  | init : QReach ([], [])
  | step (s s2 : List Task × List Row) : QReach s → QStep s s2 → QReach s2

/-! ### `client.py`: the `_worker` loop -/

/-- What the mocked server does with one POST. -/
inductive ServerResp where
  | status (code : ℕ)
  | connError
  | otherExc
deriving DecidableEq, Repr

/-- The log lines `_worker` can emit for one task. -/
inductive LogEvent where
  | warnNotSentNotRequeued
  | warnConnRefused
  | warnNotSentRequeueing
  | errorLog
deriving DecidableEq, Repr

/-- One pass of `AuditorClient._worker` over a claimed token, given
the server's behaviour: `try_once` first (no POST if it fails); an
ADD sees `RecordExistsError` on 409 (warn, drop), an UPDATE sees
`RecordDoesNotExistError` on 400 (warn, requeue if retries remain);
both see `ClientConnectorError` on a connection failure (warn,
requeue if retries remain); any other exception is logged and the
task dropped; any other status — including other non-2xx — returns
normally and the task is done.  The result is (POST attempted, log
events, requeue request passed to `queue.put(token,
wait_for_sec=delay_before_retry)`). -/
def workerStep (token : Task) (resp : ServerResp) (delay_before_retry : ℕ) :
    Bool × List LogEvent × Option (Task × ℕ) :=
  if (token.try_once).1 then
    match (token.try_once).2.instr, resp with
    | Instruction.ADD, ServerResp.status c =>
      if c = 409 then (true, [LogEvent.warnNotSentNotRequeued], none)
      else (true, [], none)
    | Instruction.ADD, ServerResp.connError =>
      (true, [LogEvent.warnConnRefused],
        if 0 < (token.try_once).2.retries then
          some ((token.try_once).2, delay_before_retry) else none)
    | Instruction.ADD, ServerResp.otherExc => (true, [LogEvent.errorLog], none)
    | Instruction.UPDATE, ServerResp.status c =>
      if c = 400 then
        (true, [LogEvent.warnNotSentRequeueing],
          if 0 < (token.try_once).2.retries then
            some ((token.try_once).2, delay_before_retry) else none)
      else (true, [], none)
    | Instruction.UPDATE, ServerResp.connError =>
      (true, [LogEvent.warnConnRefused],
        if 0 < (token.try_once).2.retries then
          some ((token.try_once).2, delay_before_retry) else none)
    | Instruction.UPDATE, ServerResp.otherExc => (true, [LogEvent.errorLog], none)
  else (false, [], none)

/-- Total POSTs for one task against a server whose every response is
a transport-level connection failure (`ClientConnectorError`),
mirroring `_worker` with this task alone in the queue: `try_once`
gates the POST; after the failed POST the token is requeued via
`queue.put(token, wait_for_sec=delay_before_retry)` exactly when
`token.retries() > 0`, and `Queue.get` clears `_schedule_after` when
the requeued token is claimed again at the next iteration. -/
def connFailPosts (delay_before_retry : ℕ) (clock : ℕ → Datetime)
    (t : Task) (i : ℕ) : ℕ :=
  if (t.try_once).1 then
    if 0 < (t.try_once).2.retries then
      1 + connFailPosts delay_before_retry clock
        (((t.try_once).2.wait_for_sec (some delay_before_retry)
            (clock i)).wait_for_sec none (clock (i + 1))) (i + 1)
    else 1
  else 0
termination_by t.retries.toNat
decreasing_by
  simp only [Task.try_once, Task.wait_for_sec, decide_eq_true_eq] at *
  omega

/-- Draining a heap by repeated `heappop` (the delivery order a
worker pool observes when every task is due). -/
def heapDrain : ℕ → List Task → List Task
  | 0, _ => []
  | fuel + 1, h =>
    match heappop h with
    | none => []
    | some (t, h2) => t :: heapDrain fuel h2

/-! ### Push and pop permute the pending multiset -/

theorem heappush_perm (heap : List Task) (t : Task) :
    (heappush heap t).Perm (t :: heap) := by
  rw [List.perm_iff_count]
  intro a
  have h1 := heappush_count heap t a
  rw [List.count_cons] at *
  by_cases hta : t = a <;> simp [hta] at h1 ⊢ <;> omega

theorem heappop_perm (heap : List Task) (t : Task) (rest : List Task)
    (h : heappop heap = some (t, rest)) : heap.Perm (t :: rest) := by
  rw [List.perm_iff_count]
  intro a
  have h1 := heappop_count heap t rest h a
  rw [List.count_cons]
  by_cases hta : t = a <;> simp [hta] at h1 ⊢ <;> omega

theorem mem_heappush (heap : List Task) (t x : Task) (hx : x ∈ heap) :
    x ∈ heappush heap t :=
  (heappush_perm heap t).mem_iff.mpr (List.mem_cons_of_mem t hx)

theorem self_mem_heappush (heap : List Task) (t : Task) :
    t ∈ heappush heap t :=
  (heappush_perm heap t).mem_iff.mpr (List.mem_cons_self t heap)

theorem mem_of_heappop (heap : List Task) (t : Task) (rest : List Task)
    (h : heappop heap = some (t, rest)) (x : Task) (hx : x ∈ heap) :
    x = t ∨ x ∈ rest := by
  have := (heappop_perm heap t rest h).mem_iff.mp hx
  rw [List.mem_cons] at this
  exact this

theorem heappop_self_mem (heap : List Task) (t : Task) (rest : List Task)
    (h : heappop heap = some (t, rest)) : t ∈ heap :=
  (heappop_perm heap t rest h).mem_iff.mpr (List.mem_cons_self t rest)

/-! ### The durable-queue invariant -/

/-- The spill store mirrors the heap: the multiset of primary keys in
the sqlite table is exactly the multiset of keys of the pending
tasks, and the table never holds two rows with the same key. -/
def StoreMatchesHeap (st : List Task × List Row) : Prop :=
  (st.2.map rowKey).Perm (st.1.map taskKey) ∧ (st.2.map rowKey).Nodup

theorem rowKey_mkRow (t : Task) : rowKey (Task.mkRow t) = taskKey t := rfl

theorem taskKey_wait_for_sec (t : Task) (d : Option ℕ) (now : Datetime) :
    taskKey (t.wait_for_sec d now) = taskKey t := by
  cases d <;> rfl

theorem storeKeys_dbDelete (s : List Row) (t : Task) :
    (dbDelete s t).map rowKey =
      (s.map rowKey).filter (fun k => decide (k ≠ taskKey t)) := by
  induction s with
  | nil => rfl
  | cons r rs ih =>
    simp only [dbDelete] at ih
    rw [dbDelete, List.filter_cons]
    by_cases hr : rowKey r ≠ taskKey t
    · rw [if_pos (by simpa using hr)]
      simp only [List.map_cons, List.filter_cons]
      rw [if_pos (by simpa using hr), ih]
    · rw [if_neg (by simpa using hr)]
      simp only [List.map_cons, List.filter_cons]
      rw [if_neg (by simpa using hr), ih]

theorem nodup_mem_filter_perm {α : Type} [DecidableEq α] (l : List α) (a : α)
    (hnd : l.Nodup) (ha : a ∈ l) :
    (a :: l.filter (fun x => decide (x ≠ a))).Perm l := by
  induction l with
  | nil => cases ha
  | cons b bs ih =>
    simp only [List.nodup_cons] at hnd
    rcases List.mem_cons.mp ha with h | h
    · subst h
      rw [List.filter_cons, if_neg (by simp)]
      have hself : bs.filter (fun x => decide (x ≠ a)) = bs := by
        refine List.filter_eq_self.mpr ?_
        intro x hx
        simp only [ne_eq, decide_eq_true_eq]
        intro he
        exact hnd.1 (he ▸ hx)
      rw [hself]
    · by_cases hb : b = a
      · subst hb
        exact absurd h hnd.1
      · rw [List.filter_cons, if_pos (by simpa using hb)]
        exact (List.Perm.swap b a _).trans ((ih hnd.2 h).cons b)

theorem qreach_storeMatches (st : List Task × List Row) (hr : QReach st) :
    StoreMatchesHeap st := by
  induction hr with
  | init => exact ⟨List.Perm.refl _, by simp⟩
  | step s1 s2 _ hstep ih =>
    obtain ⟨hperm, hnd⟩ := ih
    cases hstep with
    | putOk h s t delay now1 now2 h2 s2 hput =>
      rw [queuePut] at hput
      cases hdb : dbPut s (Task.mkRow (t.wait_for_sec delay now1)) with
      | error e =>
        rw [hdb] at hput
        exact absurd hput (by simp)
      | ok s3 =>
        rw [hdb] at hput
        injection hput with hpair
        injection hpair with hh hs
        rw [dbPut] at hdb
        split at hdb
        · exact absurd hdb (by simp)
        · rename_i hfresh
          injection hdb with hs3
          subst hs3
          subst hh
          subst hs
          constructor
          · rw [List.map_append]
            have hk : rowKey (Task.mkRow (t.wait_for_sec delay now1)) =
                taskKey t := by
              rw [rowKey_mkRow, taskKey_wait_for_sec]
            simp only [List.map_cons, List.map_nil, hk]
            refine (List.perm_append_singleton _ _).trans ?_
            refine (hperm.cons (taskKey t)).trans ?_
            have hp3 : ((heappush h (t.wait_for_sec delay now2)).map taskKey).Perm
                (taskKey t :: h.map taskKey) := by
              have := (heappush_perm h (t.wait_for_sec delay now2)).map taskKey
              simpa [taskKey_wait_for_sec] using this
            exact hp3.symm
          · rw [List.map_append]
            rw [List.nodup_append]
            refine ⟨hnd, by simp, ?_⟩
            intro k hk1 hk2
            simp only [List.map_cons, List.map_nil, List.mem_singleton] at hk2
            subst hk2
            rw [List.any_eq_true] at hfresh
            obtain ⟨r0, hr0, he0⟩ := List.mem_map.mp hk1
            exact hfresh ⟨r0, hr0, by simpa using he0⟩
    | putFail h s t delay now1 now2 e hput => exact ⟨hperm, hnd⟩
    | claim h s t h2 now hpop hdue =>
      constructor
      · rw [storeKeys_dbDelete]
        have htmem : taskKey t ∈ h.map taskKey :=
          List.mem_map_of_mem _ (heappop_self_mem _ _ _ hpop)
        have hsmem : taskKey t ∈ s.map rowKey := hperm.mem_iff.mpr htmem
        have hp1 := nodup_mem_filter_perm (s.map rowKey) (taskKey t) hnd hsmem
        have hp2 : (h.map taskKey).Perm (taskKey t :: h2.map taskKey) := by
          have := (heappop_perm h t h2 hpop).map taskKey
          simpa using this
        have hchain : (taskKey t ::
            (s.map rowKey).filter (fun k => decide (k ≠ taskKey t))).Perm
            (taskKey t :: h2.map taskKey) :=
          hp1.trans (hperm.trans hp2)
        exact hchain.cons_inv
      · rw [storeKeys_dbDelete]
        exact hnd.filter _
    | regate h s t h2 now hpop hdue =>
      refine ⟨?_, hnd⟩
      have hp2 : (h.map taskKey).Perm (taskKey t :: h2.map taskKey) := by
        have := (heappop_perm h t h2 hpop).map taskKey
        simpa using this
      have hp3 : ((heappush h2 t).map taskKey).Perm
          (taskKey t :: h2.map taskKey) := by
        have := (heappush_perm h2 t).map taskKey
        simpa using this
      exact (hperm.trans hp2).trans hp3.symm

/-! ### Properties of the `Queue.get` loop -/

theorem instr_of_key_le_one (t : Task) (h : key t ≤ 1) :
    t.instr = Instruction.ADD := by
  cases h2 : t.instr with
  | ADD => rfl
  | UPDATE =>
    rw [key, h2] at h
    simp [Instruction.val] at h

theorem key_eq_one_of_add (t : Task) (h : t.instr = Instruction.ADD) :
    key t = 1 := by
  rw [key, h]
  rfl

/-- Every task `queueGetLoop` hands out was due at the `datetime.now()`
of the iteration that returned it. -/
theorem queueGetLoop_gate (clock : ℕ → Datetime) (store : List Row) :
    ∀ fuel heap i t h2 s2 τ,
      queueGetLoop clock store heap i fuel = some (t, h2, s2, τ) →
      t.schedule_after = none ∨
        ∃ s, t.schedule_after = some s ∧ dtLt s τ = true := by
  intro fuel
  induction fuel with
  | zero =>
    intro heap i t h2 s2 τ h
    rw [queueGetLoop] at h
    cases h
  | succ fuel ih =>
    intro heap i t h2 s2 τ h
    rw [queueGetLoop] at h
    cases hp : heappop heap with
    | none =>
      simp only [hp] at h
      exact Option.noConfusion h
    | some pr =>
      obtain ⟨t0, h0⟩ := pr
      simp only [hp] at h
      split at h
      · rename_i hdue
        injection h with h1
        injection h1 with he1 h1
        injection h1 with he2 h1
        injection h1 with he3 he4
        rw [← he1, ← he4]
        rw [due] at hdue
        cases hs : t0.schedule_after with
        | none => exact Or.inl rfl
        | some s =>
          simp only [hs] at hdue
          exact Or.inr ⟨s, rfl, hdue⟩
      · exact ih _ _ _ _ _ _ h

/-- While any ADD is pending, the loop of `Queue.get` only ever hands
out ADD tasks: the popped minimum has key 1, and a time-gated minimum
is pushed straight back. -/
theorem queueGetLoop_add_first (clock : ℕ → Datetime) (store : List Row) :
    ∀ fuel heap i t h2 s2 τ,
      Reachable heap → (∃ a ∈ heap, a.instr = Instruction.ADD) →
      queueGetLoop clock store heap i fuel = some (t, h2, s2, τ) →
      t.instr = Instruction.ADD := by
  intro fuel
  induction fuel with
  | zero =>
    intro heap i t h2 s2 τ hr hadd h
    rw [queueGetLoop] at h
    cases h
  | succ fuel ih =>
    intro heap i t h2 s2 τ hr hadd h
    rw [queueGetLoop] at h
    cases hp : heappop heap with
    | none =>
      simp only [hp] at h
      exact Option.noConfusion h
    | some pr =>
      obtain ⟨t0, h0⟩ := pr
      simp only [hp] at h
      obtain ⟨a, ha, hai⟩ := hadd
      have hmin := heappop_min heap t0 h0 (Reachable.isHeap heap hr) hp a ha
      rw [key_eq_one_of_add a hai] at hmin
      have ht0 : t0.instr = Instruction.ADD := instr_of_key_le_one t0 hmin
      split at h
      · injection h with h1
        injection h1 with he1 h1
        rw [← he1]
        exact ht0
      · refine ih _ _ _ _ _ _
          (Reachable.push h0 t0 (Reachable.pop heap h0 t0 hr hp)) ?_ h
        rcases mem_of_heappop heap t0 h0 hp a ha with hat | hah
        · exact ⟨t0, self_mem_heappush h0 t0, hat ▸ hai⟩
        · exact ⟨a, mem_heappush h0 t0 a hah, hai⟩

/-! ### Concrete example data used by witnesses and counterexamples -/

def exRecord : Record :=
  ⟨"rec-1", "site-1", "user-1", "group-1", [⟨"Cores", 4, (13 : ℚ) / 10⟩],
    some "2021-12-06T16:29:43Z", none⟩

def epochDt : Datetime := ⟨1970, 1, 1, 0, 0, 0, 0⟩

def exDt : Datetime := ⟨2021, 12, 6, 16, 29, 43, 123456⟩

def addTask0 : Task := ⟨Instruction.ADD, ⟨"a", "s", "u", "g", [], none, none⟩, 5, none⟩

def updTask1 : Task := ⟨Instruction.UPDATE, ⟨"u1", "s", "u", "g", [], none, none⟩, 5, none⟩

def updTask2 : Task := ⟨Instruction.UPDATE, ⟨"u2", "s", "u", "g", [], none, none⟩, 5, none⟩

def updTask3 : Task := ⟨Instruction.UPDATE, ⟨"u3", "s", "u", "g", [], none, none⟩, 5, none⟩

def badRow : Row := ⟨"r-bad", "s", 2, Record.as_dict exRecord, 5, "garbage"⟩

def goodRow : Row := Task.mkRow ⟨Instruction.ADD, exRecord, 5, none⟩

/-- A user id containing a single quote, built character by character
so the source text stays quote-free. -/
def quotedUserId : String :=
  String.mk ['O', quoteChar, 'B', 'r', 'i', 'e', 'n']

/-- A task whose record and site ids are quote-free but whose user id
contains a single quote. -/
def quoteTask : Task :=
  ⟨Instruction.ADD,
    ⟨"rec-q", "site-q", quotedUserId, "group-q", [], none, none⟩,
    5, none⟩

/-- The field ranges Python's `datetime` constructor enforces, which
every `datetime.now()`-derived value satisfies. -/
def dtValid (d : Datetime) : Prop :=
  1 ≤ d.year ∧ d.year ≤ 9999 ∧ 1 ≤ d.month ∧ d.month ≤ 12 ∧ 1 ≤ d.day ∧
    d.day ≤ daysInMonth d.year d.month ∧ d.hour ≤ 23 ∧ d.minute ≤ 59 ∧
    d.second ≤ 59 ∧ d.microsecond < 1000000

theorem dtStr_ne_none (d : Datetime) : dtStr d ≠ "None" := by
  intro he
  rw [dtStr] at he
  have hd : dtStrChars d = "None".data := congrArg String.data he
  have hlen4 : (dtStrChars d).length = 4 := by
    rw [hd]
    rfl
  have : (dtStrChars d).length = 19 ∨ (dtStrChars d).length = 26 := by
    by_cases hz : d.microsecond = 0 <;>
      simp [dtStrChars, dateChars, timeChars, microChars, pad4, pad2, pad6, hz]
  omega

theorem dbGetAll_ok_forall :
    ∀ (rows : List Row) (ts : List Task), dbGetAll rows = Except.ok ts →
      ∀ r ∈ rows, ∃ t, rowToTask r = Except.ok t := by
  intro rows
  induction rows with
  | nil =>
    intro ts h r hr
    cases hr
  | cons q qs ih =>
    intro ts h r hr
    rw [dbGetAll] at h
    cases hq : rowToTask q with
    | error e =>
      simp only [hq] at h
      exact Except.noConfusion h
    | ok t =>
      simp only [hq] at h
      cases hqs : dbGetAll qs with
      | error e =>
        simp only [hqs] at h
        exact Except.noConfusion h
      | ok ts2 =>
        rcases List.mem_cons.mp hr with he | hm
        · exact ⟨t, he ▸ hq⟩
        · exact ih ts2 hqs r hm

/-! ### The claims -/

/-- C1.  Instruction-ordered delivery: whenever an ADD task and an
UPDATE task are both pending in the priority queue, `Queue.get`
returns the ADD before the UPDATE — as long as any ADD is pending,
every task the get loop hands out is an ADD (an UPDATE is never
returned past a pending ADD); in particular, for every record `r`,
enqueuing `UPDATE(r)` and then `ADD(r)` with no intervening dequeue
makes the worker observe `ADD(r)` first. -/
theorem add_before_update :
    (∀ (clock : ℕ → Datetime) (store : List Row) (fuel : ℕ)
        (heap : List Task) (i : ℕ) (t : Task) (h2 : List Task)
        (s2 : List Row) (τ : Datetime),
        Reachable heap → (∃ a ∈ heap, a.instr = Instruction.ADD) →
        queueGetLoop clock store heap i fuel = some (t, h2, s2, τ) →
        t.instr = Instruction.ADD) ∧
    (∀ (r : Record) (k : ℤ) (clock : ℕ → Datetime) (store : List Row) (i : ℕ),
        queueGetLoop clock store
          (heappush (heappush [] ⟨Instruction.UPDATE, r, k, none⟩)
            ⟨Instruction.ADD, r, k, none⟩) i 1 =
          some (⟨Instruction.ADD, r, k, none⟩,
            [⟨Instruction.UPDATE, r, k, none⟩],
            dbDelete store ⟨Instruction.ADD, r, k, none⟩, clock i)) := by
  constructor
  · exact fun clock store fuel heap i t h2 s2 τ hr hadd h =>
      queueGetLoop_add_first clock store fuel heap i t h2 s2 τ hr hadd h
  · intro r k clock store i
    simp [queueGetLoop, heappush, siftdown, heappop, siftup, siftupLoop,
      childSel, key, Instruction.val, due]

theorem add_before_update_witness :
    ∃ pr, queueGetLoop (fun _ => epochDt) []
        (heappush (heappush [] ⟨Instruction.UPDATE, exRecord, 5, none⟩)
          ⟨Instruction.ADD, exRecord, 5, none⟩) 0 1 = some pr ∧
      pr.1.instr = Instruction.ADD := by
  obtain ⟨h1, h2⟩ := add_before_update
  refine ⟨_, h2 exRecord 5 (fun _ => epochDt) [] 0, ?_⟩
  refine h1 (fun _ => epochDt) [] 1 _ 0 _ _ _ _
    (Reachable.push _ _ (Reachable.push _ _ Reachable.nil))
    ⟨⟨Instruction.ADD, exRecord, 5, none⟩, ?_, rfl⟩
    (h2 exRecord 5 (fun _ => epochDt) [] 0)
  simp [heappush, siftdown, key, Instruction.val]

/-- C2.  Durable-queue invariant: in every state reachable by the
queue's operations (the two outcomes of `Queue.put` and the two
outcomes of one iteration of the `Queue.get` loop — claiming a due
task deletes its row, re-inserting a gated task keeps it), the
multiset of primary keys in the spill store equals the multiset of
keys of the tasks accepted but not yet claimed, with no duplicate
rows; and a `Queue.put` that returns placed the task's row in the
store (the `db.put` precedes the heap insert, so the task is
persisted before `add_record_queue`/`update_record_queue` return). -/
theorem durable_queue_invariant :
    (∀ st, QReach st → StoreMatchesHeap st) ∧
    (∀ (heap : List Task) (store : List Row) (task : Task)
        (delay : Option ℕ) (now1 now2 : Datetime) (h2 : List Task)
        (s2 : List Row),
        queuePut heap store task delay now1 now2 = Except.ok (h2, s2) →
        Task.mkRow (task.wait_for_sec delay now1) ∈ s2) := by
  constructor
  · exact qreach_storeMatches
  · intro heap store task delay now1 now2 h2 s2 hput
    rw [queuePut] at hput
    cases hdb : dbPut store (Task.mkRow (task.wait_for_sec delay now1)) with
    | error e =>
      simp only [hdb] at hput
      exact Except.noConfusion hput
    | ok s3 =>
      simp only [hdb] at hput
      injection hput with hpair
      injection hpair with hh hs
      rw [dbPut] at hdb
      split at hdb
      · exact absurd hdb (by simp)
      · injection hdb with hs3
        rw [← hs, ← hs3]
        simp

theorem durable_queue_invariant_witness :
    StoreMatchesHeap ([], []) ∧
      Task.mkRow (Task.wait_for_sec ⟨Instruction.ADD, exRecord, 5, none⟩
          none epochDt) ∈
        [Task.mkRow (Task.wait_for_sec ⟨Instruction.ADD, exRecord, 5, none⟩
          none epochDt)] := by
  obtain ⟨h1, h2⟩ := durable_queue_invariant
  refine ⟨h1 _ QReach.init,
    h2 [] [] ⟨Instruction.ADD, exRecord, 5, none⟩ none epochDt epochDt
      (heappush [] (Task.wait_for_sec ⟨Instruction.ADD, exRecord, 5, none⟩
        none epochDt))
      [Task.mkRow (Task.wait_for_sec ⟨Instruction.ADD, exRecord, 5, none⟩
        none epochDt)] ?_⟩
  simp [queuePut, dbPut]

/-- C3 counterexample.  The claim predicts `k + 1` POST attempts for a
task enqueued with `retries = k`; against an always-connection-failing
server a task with `retries = 1` yields exactly one POST, not two:
`try_once` decrements first and the worker requeues only while
`token.retries() > 0`. -/
theorem retry_budget_counterexample :
    connFailPosts 5 (fun _ => epochDt)
        ⟨Instruction.ADD, exRecord, (1 : ℤ), none⟩ 0 = 1 ∧
      (1 : ℕ) ≠ 1 + 1 := by
  constructor
  · rw [connFailPosts]
    norm_num [Task.try_once]
  · decide

/-- C3 amended.  Against a server whose every response classifies as a
transient connection failure, a task enqueued with `retries = k`
(k ≥ 1) causes exactly `k` HTTP POST attempts (not `k + 1`) and is
then dropped — the last attempt leaves `token.retries() = 0`, which
fails the requeue guard; each requeue before that passes
`wait_for_sec = delay_before_retry` to `Queue.put`. -/
theorem retry_budget (delay_before_retry : ℕ) (clock : ℕ → Datetime)
    (ins : Instruction) (rec : Record) :
    ∀ (k : ℕ), 1 ≤ k → ∀ (sched : Option Datetime) (i : ℕ),
      connFailPosts delay_before_retry clock ⟨ins, rec, (k : ℤ), sched⟩ i = k := by
  intro k
  induction k with
  | zero =>
    intro h
    exfalso
    omega
  | succ k ih =>
    intro hk sched i
    rw [connFailPosts]
    simp only [Task.try_once, Task.wait_for_sec, decide_eq_true_eq]
    have hcond1 : (0 : ℤ) ≤ ((k + 1 : ℕ) : ℤ) - 1 := by push_cast; omega
    rw [if_pos hcond1]
    by_cases hk0 : k = 0
    · subst hk0
      have hcond3 : ¬ (0 : ℤ) < ((0 + 1 : ℕ) : ℤ) - 1 := by omega
      rw [if_neg hcond3]
    · have hcond2 : (0 : ℤ) < ((k + 1 : ℕ) : ℤ) - 1 := by push_cast; omega
      rw [if_pos hcond2]
      have hc : ((k + 1 : ℕ) : ℤ) - 1 = (k : ℤ) := by push_cast; ring
      rw [hc, ih (by omega) none (i + 1)]
      omega

theorem retry_budget_witness :
    connFailPosts 5 (fun _ => epochDt)
      ⟨Instruction.ADD, exRecord, ((2 : ℕ) : ℤ), none⟩ 0 = 2 :=
  retry_budget 5 (fun _ => epochDt) Instruction.ADD exRecord 2 (by omega) none 0

/-- C4.  Worker response classification: an ADD answered 409 Conflict
raises `RecordExistsError`, which the worker logs as a warning and
drops without requeuing (so the task gets exactly the one POST); an
UPDATE answered 400 Bad Request raises `RecordDoesNotExistError`,
which the worker logs and requeues through `queue.put(token,
wait_for_sec=delay_before_retry)` provided retries remain
(`token.retries() > 0` after the `try_once` decrement). -/
theorem worker_response_classification :
    (∀ (t : Task) (delay : ℕ), t.instr = Instruction.ADD → 1 ≤ t.retries →
        workerStep t (ServerResp.status 409) delay =
          (true, [LogEvent.warnNotSentNotRequeued], none)) ∧
    (∀ (t : Task) (delay : ℕ), t.instr = Instruction.UPDATE → 2 ≤ t.retries →
        workerStep t (ServerResp.status 400) delay =
          (true, [LogEvent.warnNotSentRequeueing],
            some ({ t with retries := t.retries - 1 }, delay))) := by
  constructor
  · intro t delay hi hr
    obtain ⟨ti, tr, tre, ts⟩ := t
    dsimp only at hi hr
    subst hi
    have hcond : (Task.try_once
        ⟨Instruction.ADD, tr, tre, ts⟩).1 = true := by
      simp [Task.try_once]
      omega
    rw [workerStep.eq_def, if_pos hcond]
    rfl
  · intro t delay hi hr
    obtain ⟨ti, tr, tre, ts⟩ := t
    dsimp only at hi hr ⊢
    subst hi
    have hcond : (Task.try_once
        ⟨Instruction.UPDATE, tr, tre, ts⟩).1 = true := by
      simp [Task.try_once]
      omega
    have hreq : (0 : ℤ) < tre - 1 := by omega
    have hstep : workerStep ⟨Instruction.UPDATE, tr, tre, ts⟩
        (ServerResp.status 400) delay =
        (true, [LogEvent.warnNotSentRequeueing],
          if (0 : ℤ) < tre - 1 then
            some (⟨Instruction.UPDATE, tr, tre - 1, ts⟩, delay) else none) := by
      rw [workerStep.eq_def, if_pos hcond]
      rfl
    rw [hstep, if_pos hreq]

theorem worker_response_classification_witness :
    (1 ≤ (addTask0.retries) ∧
      workerStep addTask0 (ServerResp.status 409) 5 =
        (true, [LogEvent.warnNotSentNotRequeued], none)) ∧
    (2 ≤ (updTask1.retries) ∧
      workerStep updTask1 (ServerResp.status 400) 5 =
        (true, [LogEvent.warnNotSentRequeueing],
          some ({ updTask1 with retries := updTask1.retries - 1 }, 5))) :=
  ⟨⟨by decide, worker_response_classification.1 addTask0 5 rfl (by decide)⟩,
   ⟨by decide, worker_response_classification.2 updTask1 5 rfl (by decide)⟩⟩

/-- C5.  Record JSON round-trip: for every Record built from
`record_id`, `site_id`, `user_id`, `group_id`, `components` and
optional start/stop times, parsing its serialized form
(`Record(json_str=R.as_json())`) yields a record structurally equal
to `R` under `Record.__eq__`, components compared in order. -/
theorem record_json_round_trip (record_id site_id user_id group_id : String)
    (components : List Comp) (start_time stop_time : Option String) :
    Record.beq
      (Record.fromJson (Record.as_dict
        ⟨record_id, site_id, user_id, group_id, components,
          start_time, stop_time⟩))
      ⟨record_id, site_id, user_id, group_id, components,
        start_time, stop_time⟩ = true := by
  rw [Record.fromJson_as_dict]
  exact Record.beq_refl _

/-- C6.  Time-gated dequeue: whenever the `Queue.get` loop returns a
task at `datetime.now() = τ`, the task's `scheduled_after` was `None`
or earlier than `τ`; in particular a task enqueued through
`Queue.put` with delay `D` at wall-clock `now` carries
`scheduled_after = now + D`, so it is not claimed at any `τ` that is
not after `now + D`. -/
theorem time_gated_dequeue :
    (∀ (clock : ℕ → Datetime) (store : List Row) (fuel : ℕ)
        (heap : List Task) (i : ℕ) (t : Task) (h2 : List Task)
        (s2 : List Row) (τ : Datetime),
        queueGetLoop clock store heap i fuel = some (t, h2, s2, τ) →
        t.schedule_after = none ∨
          ∃ s, t.schedule_after = some s ∧ dtLt s τ = true) ∧
    (∀ (task : Task) (D : ℕ) (now1 now2 : Datetime) (heap : List Task)
        (store : List Row) (h2 : List Task) (s2 : List Row),
        queuePut heap store task (some D) now1 now2 = Except.ok (h2, s2) →
        ∀ (clock : ℕ → Datetime) (fuel i : ℕ) (t : Task) (h3 : List Task)
          (s3 : List Row) (τ : Datetime),
          queueGetLoop clock s2 h3 i fuel = some (t, h2, s3, τ) →
          t.schedule_after = some (now2.addSeconds D) →
          dtLt (now2.addSeconds D) τ = true) := by
  constructor
  · exact fun clock store => queueGetLoop_gate clock store
  · intro task D now1 now2 heap store h2 s2 hput clock fuel i t h3 s3 τ hget hs
    rcases queueGetLoop_gate clock s2 fuel h3 i t h2 s3 τ hget with hn | ⟨s, hss, hlt⟩
    · rw [hn] at hs
      exact Option.noConfusion hs
    · rw [hss] at hs
      injection hs with he
      rw [← he]
      exact hlt

theorem time_gated_dequeue_witness :
    (⟨Instruction.ADD, exRecord, 5, none⟩ : Task).schedule_after = none ∨
      ∃ s, (⟨Instruction.ADD, exRecord, 5, none⟩ : Task).schedule_after =
          some s ∧ dtLt s epochDt = true := by
  refine time_gated_dequeue.1 (fun _ => epochDt) [] 1
    [⟨Instruction.ADD, exRecord, 5, none⟩] 0 _ []
    (dbDelete [] ⟨Instruction.ADD, exRecord, 5, none⟩) epochDt ?_
  simp [queueGetLoop, heappop, due]

/-- C7 counterexample.  `DBsqlite.put` is a plain `INSERT`: putting a
task whose `(record_id, site_id, instruction)` key already has a row
fails with sqlite's unique-constraint error instead of replacing, and
`add_record_queue` (which has no `try/except`) propagates that error
to the caller. -/
theorem spill_put_insert_or_replace_counterexample :
    dbPut [Task.mkRow ⟨Instruction.ADD, exRecord, 5, none⟩]
        (Task.mkRow ⟨Instruction.ADD, exRecord, 5, none⟩) =
      Except.error "UNIQUE constraint failed: auditorclient" ∧
    add_record_queue [] [Task.mkRow ⟨Instruction.ADD, exRecord, 5, none⟩]
        exRecord 5 epochDt epochDt =
      Except.error "UNIQUE constraint failed: auditorclient" := by
  constructor
  · rw [dbPut]
    simp
  · rw [add_record_queue, queuePut, Task.wait_for_sec, dbPut]
    simp

/-- C7 amended.  `DBsqlite.put` is a plain `INSERT INTO` with no `OR
REPLACE`: whenever a row with the incoming row's primary key already
exists, `put` raises the unique-constraint `IntegrityError`, and a
queued write (`add_record_queue`) for an already-pending identity
propagates that error to the caller instead of being swallowed. -/
theorem spill_put_plain_insert :
    (∀ (store : List Row) (r : Row), (∃ q ∈ store, rowKey q = rowKey r) →
        dbPut store r =
          Except.error "UNIQUE constraint failed: auditorclient") ∧
    (∀ (heap : List Task) (store : List Row) (record : Record) (retries : ℤ)
        (now1 now2 : Datetime),
        (∃ q ∈ store, rowKey q =
            taskKey ⟨Instruction.ADD, record, retries, none⟩) →
        add_record_queue heap store record retries now1 now2 =
          Except.error "UNIQUE constraint failed: auditorclient") := by
  constructor
  · intro store r ⟨q, hq, he⟩
    rw [dbPut, if_pos]
    rw [List.any_eq_true]
    exact ⟨q, hq, by simp [he]⟩
  · intro heap store record retries now1 now2 ⟨q, hq, he⟩
    rw [add_record_queue, queuePut]
    have hk : rowKey (Task.mkRow
        (Task.wait_for_sec ⟨Instruction.ADD, record, retries, none⟩ none now1)) =
        taskKey ⟨Instruction.ADD, record, retries, none⟩ := by
      rw [rowKey_mkRow, taskKey_wait_for_sec]
    have hdb : dbPut store (Task.mkRow
        (Task.wait_for_sec ⟨Instruction.ADD, record, retries, none⟩ none now1)) =
        Except.error "UNIQUE constraint failed: auditorclient" := by
      rw [dbPut, if_pos]
      rw [List.any_eq_true]
      exact ⟨q, hq, by simp [hk, he]⟩
    simp only [hdb]

theorem spill_put_plain_insert_witness :
    dbPut [goodRow] goodRow =
        Except.error "UNIQUE constraint failed: auditorclient" ∧
      add_record_queue [] [goodRow] exRecord 5 epochDt epochDt =
        Except.error "UNIQUE constraint failed: auditorclient" :=
  ⟨spill_put_plain_insert.1 [goodRow] goodRow ⟨goodRow, by simp, rfl⟩,
   spill_put_plain_insert.2 [] [goodRow] exRecord 5 epochDt epochDt
     ⟨goodRow, by simp, rfl⟩⟩

/-- C8 counterexample.  FIFO within a priority class fails: pushing
`addTask0`, then `updTask1`, `updTask2`, `updTask3` (three UPDATEs in
that order) and draining delivers `updTask2` before `updTask1`, even
though both have the same instruction and `updTask1` was put first —
`heapq` is not stable, and after the ADD is popped the sift moves the
later-enqueued UPDATE to the root. -/
theorem fifo_within_class_counterexample :
    heapDrain 4 (heappush (heappush (heappush (heappush [] addTask0)
        updTask1) updTask2) updTask3) =
      [addTask0, updTask2, updTask1, updTask3] ∧
    updTask1 ≠ updTask2 ∧ updTask1.instr = updTask2.instr := by
  refine ⟨?_, by decide, rfl⟩
  simp [heapDrain, heappush, siftdown, heappop, siftup, siftupLoop,
    childSel, key, Instruction.val, addTask0, updTask1, updTask2, updTask3]

/-- C8 amended.  `Queue.get` pops a task whose instruction value is
minimal among all pending tasks (ADD before UPDATE); between two
equal-instruction tasks the tie-break is the heap's internal order,
not insertion order, so no FIFO guarantee holds within a priority
class. -/
theorem pop_min_within_pending (heap : List Task) (t : Task)
    (rest : List Task) (hr : Reachable heap)
    (hp : heappop heap = some (t, rest)) :
    ∀ x ∈ heap, key t ≤ key x :=
  heappop_min heap t rest (Reachable.isHeap heap hr) hp

theorem pop_min_within_pending_witness :
    key addTask0 ≤ key addTask0 ∧ key addTask0 ≤ key updTask1 := by
  have e1 : heappush [] updTask1 = [updTask1] := by
    simp [heappush, siftdown]
  have e2 : heappush [updTask1] addTask0 = [addTask0, updTask1] := by
    simp [heappush, siftdown, key, Instruction.val, addTask0, updTask1]
  have hr : Reachable [addTask0, updTask1] := by
    have h := Reachable.push (heappush [] updTask1) addTask0
      (Reachable.push [] updTask1 Reachable.nil)
    rw [e1, e2] at h
    exact h
  have hp : heappop [addTask0, updTask1] = some (addTask0, [updTask1]) := by
    simp [heappop, siftup, siftupLoop, siftdown, childSel, key, Instruction.val]
  have hm := pop_min_within_pending [addTask0, updTask1] addTask0 [updTask1] hr hp
  exact ⟨hm addTask0 (by simp), hm updTask1 (by simp)⟩

/-- C9 counterexample.  A corrupted row aborts `Queue.start` instead
of being skipped: with a well-formed row followed by a row whose
`schedule_after` column does not parse, `get_all` raises and start-up
fails — the well-formed row is not replayed either. -/
theorem corrupted_row_counterexample :
    queueStart [goodRow, badRow] =
      Except.error "ParserError: unparseable schedule_after" := by
  rfl

/-- C9 amended.  `DBsqlite.get_all` and `Queue.start` have no
per-row error handling: any row whose `schedule_after` is neither the
`"None"` sentinel nor a parseable datetime makes start-up raise; the
error propagates, start-up aborts, and no rows (not even well-formed
ones) are replayed into the heap. -/
theorem corrupted_row_aborts (rows : List Row) (r : Row) (hr : r ∈ rows)
    (hne : r.schedule_after ≠ "None")
    (hdt : dtParse r.schedule_after = none) :
    ∃ e, queueStart rows = Except.error e := by
  cases hq : dbGetAll rows with
  | error e =>
    exact ⟨e, by rw [queueStart]; simp only [hq]⟩
  | ok ts =>
    obtain ⟨t, ht⟩ := dbGetAll_ok_forall rows ts hq r hr
    rw [rowToTask] at ht
    cases hi : Instruction.fromVal r.instruction with
    | none =>
      simp only [hi] at ht
      exact absurd ht (by simp)
    | some ins =>
      simp only [hi] at ht
      rw [if_neg hne] at ht
      simp only [hdt] at ht
      exact absurd ht (by simp)

theorem corrupted_row_aborts_witness :
    ∃ e, queueStart [goodRow, badRow] = Except.error e :=
  corrupted_row_aborts [goodRow, badRow] badRow (by simp)
    (by decide) (by decide)

/-- C10.  Counterexample to the claim as stated: the claim conditions
only `record_id` and `site_id`, but `DBsqlite.put` interpolates the
whole `record.as_json()` dump into the SQL text unescaped, so a
single quote in `user_id` alone already breaks the `INSERT`.  For
`quoteTask` both hypotheses of the claim hold — its record and site
ids are quote-free — and yet the put raises instead of storing the
row, so no round trip happens. -/
theorem spill_store_round_trip_counterexample :
    quoteChar ∉ quoteTask.record.record_id.data ∧
      quoteChar ∉ quoteTask.record.site_id.data ∧
      DBsqlite.put [] quoteTask =
        Except.error "OperationalError: unrecognized token" :=
  ⟨by decide, by decide, rfl⟩

/-- C10 (amended).  Spill-store round-trip: the quote-freedom
hypothesis must cover every text interpolated into the `INSERT`
f-string — `record_id`, `site_id`, the whole `record.as_json()` dump
(hence also `user_id`, `group_id`, every component name and the
optional start and stop times) and `str(schedule_after)` — not just
the two ids.  Under that hypothesis, and with a valid optional
`schedule_after` datetime, `DBsqlite.put` into an empty store
succeeds and `get_all` returns a task `Task.__eq__`-equal to the
original: the int value of the instruction maps back through
`Instruction(...)`, the record blob parses back structurally equal,
retries survive, `schedule_after = None` is stored as the literal
string `'None'` and mapped back to `None`, and a datetime survives
the `str`/`dateutil.parser.parse` cycle. -/
theorem spill_store_round_trip (t : Task)
    (htext : t.putTextOk = true)
    (hv : ∀ d, t.schedule_after = some d → dtValid d) :
    DBsqlite.put [] t = Except.ok [Task.mkRow t] ∧
      ∃ t2, dbGetAll [Task.mkRow t] = Except.ok [t2] ∧
        Task.beq t2 t = true := by
  constructor
  · rw [DBsqlite.put, if_pos htext, dbPut]
    simp
  · have hrt : rowToTask (Task.mkRow t) = Except.ok
        ⟨t.instr, Record.fromJson (Record.as_dict t.record),
          t.retries, t.schedule_after⟩ := by
      rw [rowToTask]
      have hi : Instruction.fromVal (Task.mkRow t).instruction =
          some t.instr := by
        show Instruction.fromVal t.instr.val = some t.instr
        generalize t.instr = ti
        cases ti <;> rfl
      simp only [hi]
      cases hs : t.schedule_after with
      | none =>
        simp [Task.mkRow, pyStrOpt, hs]
      | some d =>
        obtain ⟨h1, h2, h3, h4, h5, h6, h7, h8, h9, h10⟩ := hv d hs
        simp only [Task.mkRow, pyStrOpt, hs]
        rw [if_neg (dtStr_ne_none d),
          dtParse_dtStr d h1 h2 h3 h4 h5 h6 h7 h8 h9 h10]
    refine ⟨⟨t.instr, Record.fromJson (Record.as_dict t.record),
      t.retries, t.schedule_after⟩, ?_, ?_⟩
    · rw [dbGetAll]
      simp only [hrt]
      rw [dbGetAll]
    · simp [Task.beq, Record.fromJson_as_dict, Record.beq_refl]

theorem spill_store_round_trip_witness :
    DBsqlite.put [] ⟨Instruction.UPDATE, exRecord, 3, some exDt⟩ =
        Except.ok [Task.mkRow ⟨Instruction.UPDATE, exRecord, 3, some exDt⟩] ∧
      ∃ t2, dbGetAll [Task.mkRow ⟨Instruction.UPDATE, exRecord, 3, some exDt⟩] =
          Except.ok [t2] ∧
        Task.beq t2 ⟨Instruction.UPDATE, exRecord, 3, some exDt⟩ = true :=
  spill_store_round_trip ⟨Instruction.UPDATE, exRecord, 3, some exDt⟩
    (by decide)
    (fun d hd => by
      injection hd with he
      rw [← he]
      unfold dtValid
      decide)

end Auditor
